import Mathlib

/-!
Verification development for the forum-sync reconciliation service
(`discord_bot/services/forum_sync_service.py`).

The embedding is shallow: Python dicts become association lists with
first-match lookup, in-place update and key removal (Python dicts have
unique keys, preserved as a `Nodup` invariant on the key column); the
remote Discord API becomes an explicit environment record giving the
outcome of every remote call; the reconciliation pass
(`sync_from_database`) becomes a pure state-transition function that
also records the trace of remote mutation calls it issues.  Thread ids,
which the source stores as decimal strings and converts with `int`/`str`
at each use, are modelled as `Nat` throughout (the service itself only
ever writes `str(thread.id)` values).  The guard clauses at the top of
`sync_from_database` (bot not set, channel not a forum) merely return
early; the model starts from the reloaded mapping state, i.e. from line
104 of the source.
-/

namespace ForumSync

/-! ### Association lists with Python-dict semantics -/

/-- First-match lookup, `d.get(k)`. -/
def alGet [DecidableEq κ] : List (κ × ν) → κ → Option ν
  | [], _ => none
  | (a, b) :: m, k => if a = k then some b else alGet m k

/-- `d[k] = v`: replace in place when the key is present, else append. -/
def alInsert [DecidableEq κ] : List (κ × ν) → κ → ν → List (κ × ν)
  | [], k, v => [(k, v)]
  | (a, b) :: m, k, v => if a = k then (k, v) :: m else (a, b) :: alInsert m k v

/-- `d.pop(k, None)`: remove the entry for `k` when present. -/
def alErase [DecidableEq κ] : List (κ × ν) → κ → List (κ × ν)
  | [], _ => []
  | (a, b) :: m, k => if a = k then m else (a, b) :: alErase m k

/-! ### Data model -/

/-- One dynamic subtask record (the source reads them with `dict.get`).
`id` is the optional explicit subtask id (`subtask.get('id', idx)` falls
back to the 1-based position). -/
structure Subtask where
  id : Option Nat
  name : Option String
  description : Option String
  url : Option String
  completed : Bool
deriving DecidableEq, Repr

/-- A task as the sync service reads it from the task store. -/
structure Task where
  uuid : Option String
  id : Option String
  name : String
  status : String
  colour : String
  owner : Option String
  deadline_display : Option String
  description : Option String
  url : Option String
  subtasks : List Subtask
  order : Int
deriving DecidableEq, Repr

/-- A live forum thread as seen through the thread index. -/
structure Thread where
  id : Nat
  parent_id : Nat
  name : String
deriving DecidableEq, Repr

/-- One interactive component attached to a message row. -/
structure Component where
  custom_id : Option String
deriving DecidableEq, Repr

/-- One action row of a message. -/
structure ActionRow where
  children : List Component
deriving DecidableEq, Repr

/-- A thread starter message: text content plus component rows. -/
structure Message where
  content : String
  components : List ActionRow
deriving DecidableEq, Repr

/-- Python truthiness of an optional string (`None` and `""` are falsy). -/
def truthy : Option String → Bool
  | none => false
  | some s => s ≠ ""

/-- Python `a or b` for an optional string `a` and a string default `b`. -/
def pyOr (a : Option String) (b : String) : String :=
  match a with
  | none => b
  | some s => if s = "" then b else s

/-! ### Derived name and content (`_priority_emoji`, `_get_thread_name`,
`_task_content`, `_task_sort_key`) -/

def PRIORITY_EMOJIS : List (String × String) :=
  [("Important", "🔴"), ("Moderately Important", "🟠"),
   ("Not Important", "⚪"), ("default", "⚪")]

/-- `self.PRIORITY_EMOJIS.get(priority, "⚪")`. -/
def priority_emoji (p : String) : String :=
  (alGet PRIORITY_EMOJIS p).getD "⚪"

/-- The distinct emoji values, `set(self.PRIORITY_EMOJIS.values())`.
Python set iteration order is unspecified; theorems about the stripping
loop quantify over permutations of this list. -/
def priorityEmojiValues : List String := ["🔴", "🟠", "⚪"]

/-- `_get_thread_name`: priority emoji, a space, then the task name. -/
def get_thread_name (t : Task) : String :=
  priority_emoji t.colour ++ " " ++ t.name

/-- Modelled from the spec: `task.progress_bar()` is implemented by the
task model outside the synced sources; the spec calls it only
"a progress indicator" for the subtask list, so it is modelled as a
deterministic rendering of the completed-over-total counts. -/
def progress_bar (t : Task) : String :=
  toString (t.subtasks.filter (fun s => s.completed)).length ++ "/" ++
    toString t.subtasks.length

/-- The lines rendered for one subtask (checkbox, id or 1-based fallback
index, name, then optional description and url sub-lines). -/
def subtask_lines (idx : Nat) (s : Subtask) : List String :=
  let checkbox := if s.completed then "✅" else "☐"
  let sid := s.id.getD idx
  let base := [checkbox ++ " " ++ toString sid ++ ". " ++
    (s.name.getD "Unnamed subtask")]
  let base := if truthy s.description then
    base ++ ["   📝 " ++ s.description.getD ""] else base
  if truthy s.url then base ++ ["   🔗 " ++ s.url.getD ""] else base

/-- `_task_content`: the starter-message body rendered from the task. -/
def task_content (t : Task) : String :=
  let lines := ["**Status:** " ++ t.status,
    "**Priority:** " ++ priority_emoji t.colour ++ " " ++ t.colour,
    "**Owner:** " ++ pyOr t.owner "Unassigned",
    "**Deadline:** " ++ pyOr t.deadline_display "None",
    "",
    "**Description:** " ++ pyOr t.description "*No description*"]
  let lines := if truthy t.url then
    lines ++ ["**URL:** " ++ t.url.getD ""] else lines
  let lines := if t.subtasks ≠ [] then
    lines ++ ["", "**Progress:** " ++ progress_bar t, "", "**Sub-tasks:**"] ++
      (t.subtasks.enumFrom 1).flatMap (fun p => subtask_lines p.1 p.2)
    else lines
  String.intercalate "\n" lines

/-- `_task_sort_key`: `(task.order, task.name.lower())`. -/
def task_sort_key (t : Task) : Int × String := (t.order, t.name.toLower)

/-- Lexicographic comparison of sort keys, as Python compares tuples. -/
def key_le (a b : Int × String) : Bool :=
  if a.1 < b.1 then true else if a.1 = b.1 then decide (a.2 ≤ b.2) else false

def task_le (a b : Task) : Bool := key_le (task_sort_key a) (task_sort_key b)

/-- Stable insertion: `x` goes after every element `y` with `le y x`,
so ties keep their original relative order. -/
def insertSorted {α : Type} (le : α → α → Bool) (x : α) : List α → List α
  | [] => [x]
  | y :: ys => if le y x then y :: insertSorted le x ys else x :: y :: ys

/-- `sorted(tasks, key=self._task_sort_key)`: Python's sort is a stable
sort by the key, and for a total preorder every stable sort computes the
same list; modelled as stable insertion sort (kernel-reducible, unlike
`List.mergeSort`). -/
def sortTasks (tasks : List Task) : List Task :=
  tasks.foldl (fun acc t => insertSorted task_le t acc) []

/-- The key the mapping is indexed by:
`task.uuid or task.id or task.name`. -/
def task_key (t : Task) : String := pyOr t.uuid (pyOr t.id t.name)

/-! ### Remote environment -/

/-- Outcome of `bot.fetch_channel(id)`: a thread, some non-thread
channel object, or a raised exception. -/
inductive FetchResult where
  | thread (th : Thread)
  | other
  | error
deriving DecidableEq, Repr

/-- Outcome of `thread.delete()`. -/
inductive CallResult where
  | ok
  | forbidden
  | error
deriving DecidableEq, Repr

/-- The remote world one reconciliation pass runs against: the cached
forum listing, the guild active-thread listing (`none` = the fetch
raised), and the outcome of every remote call, keyed by thread id.
`createId n` is the id Discord assigns to the `n`-th thread created
during the pass. -/
structure Env where
  forumChannelId : Nat
  forumThreads : List Thread
  activeThreads : Option (List Thread)
  fetchChannel : Nat → FetchResult
  deleteResult : Nat → CallResult
  archiveOk : Nat → Bool
  fetchMessage : Nat → Option Message
  editOk : Nat → Bool
  createId : Nat → Nat

/-- One remote mutation call issued by the pass. -/
inductive Action where
  | create (name content : String)
  | rename (threadId : Nat) (name : String)
  | editMsg (threadId : Nat) (content : String)
  | post (threadId : Nat) (content : String)
  | delete (threadId : Nat)
  | archive (threadId : Nat)
deriving DecidableEq, Repr

def Action.isCreate : Action → Bool
  | .create _ _ => true
  | _ => false

def Action.isEditMsg : Action → Bool
  | .editMsg _ _ => true
  | _ => false

/-- The persistent bidirectional mapping (`task_to_thread`,
`thread_to_task`). -/
structure SyncState where
  task_to_thread : List (String × Nat)
  thread_to_task : List (Nat × String)
deriving DecidableEq, Repr

/-- Working state of one pass: the mapping, the `mappings_changed` dirty
flag, the number of threads created so far, and the trace of remote
mutation calls issued so far. -/
structure PassState where
  maps : SyncState
  changed : Bool
  nCreated : Nat
  actions : List Action
deriving DecidableEq, Repr

/-! ### The reconciliation pass -/

/-- The merged live-thread index: `{t.id: t for t in forum.threads}`,
then overlaid with the guild active threads filtered to this forum
(skipped entirely when that fetch raises). -/
def buildLive (env : Env) : List (Nat × Thread) :=
  let base := env.forumThreads.foldl (fun d t => alInsert d t.id t) []
  match env.activeThreads with
  | none => base
  | some ts => ts.foldl
      (fun d t => if t.parent_id = env.forumChannelId then alInsert d t.id t else d)
      base

/-- `{(t.uuid or t.id or t.name): t for t in tasks}` over the sorted
task list. -/
def buildUuidToTask (tasks : List Task) : List (String × Task) :=
  tasks.foldl (fun d t => alInsert d (task_key t) t) []

/-- The legacy-key probe: the first key among `[task.id, task.name]`
that is truthy and present in `task_to_thread`, with its thread id. -/
def legacyHit (m : List (String × Nat)) : List (Option String) → Option (String × Nat)
  | [] => none
  | c :: rest =>
    match c with
    | none => legacyHit m rest
    | some k =>
      if k = "" then legacyHit m rest
      else
        match alGet m k with
        | some v => some (k, v)
        | none => legacyHit m rest

/-- Key resolution with legacy migration (lines 143-158): look up the
canonical key; on a miss probe `id` then `name`, and on a hit rewrite
the entry under the canonical key.  Returns the thread id (if any), the
possibly rewritten mapping, and whether it was rewritten. -/
def migrate (t : Task) (m : SyncState) : Option Nat × SyncState × Bool :=
  let u := task_key t
  match alGet m.task_to_thread u with
  | some v => (some v, m, false)
  | none =>
    match legacyHit m.task_to_thread [t.id, some t.name] with
    | some (k, v) =>
      (some v,
       ⟨alInsert (alErase m.task_to_thread k) u v, alInsert m.thread_to_task v u⟩,
       true)
    | none => (none, m, false)

/-- Live-thread resolution (lines 160-169): index lookup, else a direct
`fetch_channel`; a fetch failure or a non-thread channel resolves to
nothing. -/
def resolveThread (env : Env) (live : List (Nat × Thread)) (tid : Nat) : Option Thread :=
  match alGet live tid with
  | some th => some th
  | none =>
    match env.fetchChannel tid with
    | .thread th => some th
    | _ => none

/-- The shared removal procedure: try `delete()`; on `Forbidden` fall
back to `edit(archived=True, locked=True)`.  Returns whether the thread
was removed, and the remote calls issued. -/
def removeThread (env : Env) (th : Thread) : Bool × List Action :=
  match env.deleteResult th.id with
  | .ok => (true, [.delete th.id])
  | .forbidden =>
    if env.archiveOk th.id then (true, [.delete th.id, .archive th.id])
    else (false, [.delete th.id, .archive th.id])
  | .error => (false, [.delete th.id])

/-- Modelled from the spec: the interactive-control descriptor set of
`TaskView(task_uuid, subtasks)` (defined in `discord_ui/buttons`,
outside the synced sources).  The spec says only that controls carry
stable custom ids, so the view is modelled as a deterministic family of
ids derived from the task key and the subtasks. -/
def taskViewIds (u : String) (subtasks : List Subtask) : List String :=
  ["task-complete-" ++ u, "task-edit-" ++ u] ++
    subtasks.map (fun s => "subtask-toggle-" ++ u ++ "-" ++ toString (s.id.getD 0))

/-- `expected_ids`: the truthy custom ids of the freshly built view. -/
def expectedIds (u : String) (subtasks : List Subtask) : Finset String :=
  ((taskViewIds u subtasks).filter (fun i => i ≠ "")).toFinset

/-- `actual_ids`: the truthy custom ids found on the starter message. -/
def actualIds (msg : Message) : Finset String :=
  ((msg.components.flatMap ActionRow.children).filterMap
    (fun c => match c.custom_id with
      | some i => if i = "" then none else some i
      | none => none)).toFinset

/-- The starter-message refresh (lines 244-268): fetch the starter; on
any failure post one snapshot instead; otherwise edit exactly when the
content differs, the components are missing, or the control-id set
differs; when the edit itself fails, fall back to posting. -/
def starterActs (env : Env) (u : String) (t : Task) (content : String) (th : Thread) :
    List Action :=
  match env.fetchMessage th.id with
  | none => [.post th.id content]
  | some msg =>
    if msg.content ≠ content ∨ msg.components.isEmpty ∨
        expectedIds u t.subtasks ≠ actualIds msg then
      if env.editOk th.id then [.editMsg th.id content]
      else [.editMsg th.id content, .post th.id content]
    else []

/-- The main per-task step of the pass (lines 141-268). -/
def processTask (env : Env) (live : List (Nat × Thread)) (s : PassState) (t : Task) :
    PassState :=
  let u := task_key t
  let mig := migrate t s.maps
  let tido := mig.1
  let maps1 := mig.2.1
  let changed1 := s.changed || mig.2.2
  let rthread : Option Thread :=
    match tido with
    | none => none
    | some v => resolveThread env live v
  if t.status = "Complete" then
    let ra : Bool × List Action :=
      match rthread with
      | some th => removeThread env th
      | none => (tido.isSome, [])
    if ra.1 then
      ⟨⟨alErase maps1.task_to_thread u,
        match tido with
        | some v => alErase maps1.thread_to_task v
        | none => maps1.thread_to_task⟩,
       true, s.nCreated, s.actions ++ ra.2⟩
    else ⟨maps1, changed1, s.nCreated, s.actions ++ ra.2⟩
  else
    match rthread with
    | none =>
      let newId := env.createId s.nCreated
      ⟨⟨alInsert maps1.task_to_thread u newId, alInsert maps1.thread_to_task newId u⟩,
       true, s.nCreated + 1,
       s.actions ++ [.create (get_thread_name t) (task_content t)]⟩
    | some th =>
      let nm := get_thread_name t
      let renameActs := if th.name ≠ nm then [Action.rename th.id nm] else []
      ⟨maps1, changed1, s.nCreated,
       s.actions ++ renameActs ++ starterActs env u t (task_content t) th⟩

/-- One step of the reverse scan (lines 272-302): a live thread whose
mapped task is now Complete is removed the same way. -/
def reverseStep (env : Env) (u2t : List (String × Task)) (s : PassState)
    (p : Nat × Thread) : PassState :=
  match alGet s.maps.thread_to_task p.1 with
  | none => s
  | some k =>
    if k = "" then s
    else
      match alGet u2t k with
      | none => s
      | some mt =>
        if mt.status = "Complete" then
          let ra := removeThread env p.2
          if ra.1 then
            ⟨⟨alErase s.maps.task_to_thread k, alErase s.maps.thread_to_task p.1⟩,
             true, s.nCreated, s.actions ++ ra.2⟩
          else ⟨s.maps, s.changed, s.nCreated, s.actions ++ ra.2⟩
        else s

/-- One step of the orphan sweep (lines 308-352): a mapping entry whose
task key is gone from the store has its thread removed (or, when the
thread cannot be resolved at all, just its stale mapping cleared). -/
def orphanStep (env : Env) (live : List (Nat × Thread)) (u2t : List (String × Task))
    (s : PassState) (p : String × Nat) : PassState :=
  if (alGet u2t p.1).isSome then s
  else
    let ra : Bool × List Action :=
      match resolveThread env live p.2 with
      | some th => removeThread env th
      | none => (true, [])
    if ra.1 then
      ⟨⟨alErase s.maps.task_to_thread p.1, alErase s.maps.thread_to_task p.2⟩,
       true, s.nCreated, s.actions ++ ra.2⟩
    else ⟨s.maps, s.changed, s.nCreated, s.actions ++ ra.2⟩

/-- One full reconciliation pass (`sync_from_database`, from the mapping
reload onward): sort, build the thread index and the key lookup, run the
main loop, the reverse scan, then the orphan sweep over a snapshot of
`task_to_thread`.  `.changed` of the result is exactly the
`mappings_changed` flag that decides the single `_save_mappings` call at
the end of the pass. -/
def sync_from_database (env : Env) (tasks : List Task) (maps0 : SyncState) : PassState :=
  let sorted := sortTasks tasks
  let live := buildLive env
  let u2t := buildUuidToTask sorted
  let s1 := sorted.foldl (processTask env live) ⟨maps0, false, 0, []⟩
  let s2 := live.foldl (reverseStep env u2t) s1
  s2.maps.task_to_thread.foldl (orphanStep env live u2t) s2

/-! ### Mapping store (`_load_mappings`, `_save_mappings`) -/

/-- What one call to the backing store's load can produce: a raised
exception, or a mappings dict whose two keys may each be absent. -/
inductive DbLoad where
  | failure
  | ok (t2t : Option (List (String × Nat))) (th2t : Option (List (Nat × String)))
deriving Repr

/-- `_load_mappings`: without a database, or when the read raises, the
in-memory maps are left as they were; otherwise each map is replaced by
the loaded dict, with `{}` for an absent key. -/
def load_mappings (hasDb : Bool) (r : DbLoad) (cur : SyncState) : SyncState :=
  if !hasDb then cur
  else
    match r with
    | .failure => cur
    | .ok a b => ⟨a.getD [], b.getD []⟩

/-- `_save_mappings`: best effort; returns what the store holds after
the call (`none` when nothing was persisted because there is no database
or the write raised). -/
def save_mappings (hasDb : Bool) (writeOk : Bool) (m : SyncState) : Option SyncState :=
  if hasDb && writeOk then some m else none

/-! ### The rename-handler strip step (`handle_thread_rename`,
lines 438-443) -/

/-- Python `thread_name.startswith(p)` on code points. -/
def py_startswith (s p : String) : Bool := p.data.isPrefixOf s.data

/-- Python `thread_name[len(p):]` on code points. -/
def py_drop (s : String) (n : Nat) : String := ⟨s.data.drop n⟩

/-- The prefix-stripping loop of `handle_thread_rename`: for each emoji
in the (arbitrarily ordered) value set, strip `emoji + " "` once and
stop. -/
def strip_priority_marker : List String → String → String
  | [], name => name
  | e :: rest, name =>
    if py_startswith name (e ++ " ") then py_drop name (e ++ " ").data.length
    else strip_priority_marker rest name

/-! ### Invariants -/

/-- The two mapping directions are mutual inverses. -/
def Inv2 (A : List (String × Nat)) (B : List (Nat × String)) : Prop :=
  (∀ k v, alGet A k = some v → alGet B v = some k) ∧
  (∀ v k, alGet B v = some k → alGet A k = some v)

/-- The bijection invariant of the persistent mapping. -/
def Inv (m : SyncState) : Prop := Inv2 m.task_to_thread m.thread_to_task

/-- Both maps are genuine dicts: no duplicate keys. -/
def NodupKeys (m : SyncState) : Prop :=
  (m.task_to_thread.map Prod.fst).Nodup ∧ (m.thread_to_task.map Prod.fst).Nodup

/-- Every thread id resolves during this pass: it is in the merged index
or a direct fetch returns a thread (no transient remote failures). -/
def Resolvable (env : Env) : Prop :=
  ∀ tid, (alGet (buildLive env) tid).isSome = true ∨
    ∃ th, env.fetchChannel tid = FetchResult.thread th

/-- Created thread ids are fresh: pairwise distinct and never colliding
with ids already present in the initial mapping. -/
def FreshIds (env : Env) (m : SyncState) : Prop :=
  (∀ i j, env.createId i = env.createId j → i = j) ∧
  (∀ i, env.createId i ∉ m.task_to_thread.map Prod.snd ∧
    env.createId i ∉ m.thread_to_task.map Prod.fst)

/-- The thread ids a pass state may mention: ids of the initial mapping
plus the ids created so far. -/
def InU (env : Env) (m0 : SyncState) (n : Nat) (v : Nat) : Prop :=
  v ∈ m0.task_to_thread.map Prod.snd ∨ v ∈ m0.thread_to_task.map Prod.fst ∨
    ∃ i, i < n ∧ v = env.createId i

/-- The induction invariant carried through the three sweeps of a pass. -/
def GoodState (env : Env) (m0 : SyncState) (s : PassState) : Prop :=
  Inv s.maps ∧ NodupKeys s.maps ∧
  (∀ v ∈ s.maps.task_to_thread.map Prod.snd, InU env m0 s.nCreated v) ∧
  (∀ v ∈ s.maps.thread_to_task.map Prod.fst, InU env m0 s.nCreated v)

/-! ### Concrete instances used in witnesses and counterexamples -/

/-- A non-Complete task with uuid `"u"`. -/
def c1Task : Task :=
  ⟨some "u", none, "Setup", "Open", "Important", none, none, none, none, [], 1⟩

/-- An environment in which nothing resolves: no live threads and every
direct fetch raises. -/
def c1Env : Env :=
  ⟨1, [], some [], fun _ => .error, fun _ => .ok, fun _ => true,
   fun _ => none, fun _ => true, fun n => 200 + n⟩

/-- A mutual-inverse initial mapping for `c1Task`. -/
def c1Maps : SyncState := ⟨[("u", 100)], [(100, "u")]⟩

/-- An environment in which every thread id resolves by direct fetch. -/
def c1wEnv : Env :=
  ⟨1, [], some [], fun n => .thread ⟨n, 1, "t"⟩, fun _ => .ok, fun _ => true,
   fun _ => none, fun _ => true, fun n => 1000 + n⟩

/-- A Complete task that reports a uuid but whose mapping entry is still
keyed by its legacy id. -/
def c4Task : Task :=
  ⟨some "u4", some "legacy", "T", "Complete", "Important", none, none, none,
   none, [], 1⟩

/-- The same task shape, but non-Complete. -/
def c4wTask : Task :=
  ⟨some "u4", some "legacy", "T", "Open", "Important", none, none, none,
   none, [], 1⟩

/-- A mapping still keyed by the legacy id. -/
def c4Maps : SyncState := ⟨[("legacy", 5)], [(5, "legacy")]⟩

/-- Thread 5 is live and deletable. -/
def c4Env : Env :=
  ⟨1, [⟨5, 1, "⚪ T"⟩], some [], fun _ => .error, fun _ => .ok, fun _ => true,
   fun _ => none, fun _ => true, fun n => 700 + n⟩

/-- Thread 5 is live with the derived name. -/
def c4wEnv : Env :=
  ⟨1, [⟨5, 1, "🔴 T"⟩], some [], fun _ => .error, fun _ => .ok, fun _ => true,
   fun _ => none, fun _ => true, fun n => 800 + n⟩

/-- A Complete task with uuid `"w3"`, for the completion-removal cases. -/
def c3Task : Task :=
  ⟨some "w3", none, "Done", "Complete", "Important", none, none, none, none, [], 1⟩

/-- An environment in which thread 9 resolves by direct fetch and is
deletable. -/
def c3Env : Env :=
  ⟨1, [], some [], fun n => if n = 9 then .thread ⟨9, 1, "x"⟩ else .error,
   fun _ => .ok, fun _ => true, fun _ => none, fun _ => true, fun n => 500 + n⟩

/-- A Complete task with uuid `"u"`, mapped to the unfetchable thread 5. -/
def c5Task : Task :=
  ⟨some "u", none, "Gone", "Complete", "Important", none, none, none, none, [], 1⟩

/-- No live threads; every direct fetch raises. -/
def c5Env : Env :=
  ⟨1, [], some [], fun _ => .error, fun _ => .ok, fun _ => true,
   fun _ => none, fun _ => true, fun n => 300 + n⟩

def c5Maps : SyncState := ⟨[("u", 5)], [(5, "u")]⟩

/-- Thread 7 is live but its delete call fails with a generic error. -/
def c6Env : Env :=
  ⟨1, [⟨7, 1, "x"⟩], some [], fun _ => .error, fun _ => .error, fun _ => true,
   fun _ => none, fun _ => true, fun n => 400 + n⟩

/-- A mapping entry for task key `"ghost"` that is absent from the task
set. -/
def c6Maps : SyncState := ⟨[("ghost", 7)], [(7, "ghost")]⟩

/-- A non-Complete task already in goal state for the idempotence
witness. -/
def c2Task : Task :=
  ⟨some "u", none, "Steady", "Open", "Important", none, none, none, none, [], 1⟩

/-- A starter message matching the fresh rendering of `c2Task`. -/
def c2Msg : Message :=
  ⟨task_content c2Task,
   [⟨[⟨some "task-complete-u"⟩, ⟨some "task-edit-u"⟩]⟩]⟩

/-- Thread 9 is live with the derived name and the matching starter. -/
def c2Env : Env :=
  ⟨1, [⟨9, 1, get_thread_name c2Task⟩], some [], fun _ => .error, fun _ => .ok,
   fun _ => true, fun n => if n = 9 then some c2Msg else none, fun _ => true,
   fun n => 950 + n⟩

def c2Maps : SyncState := ⟨[("u", 9)], [(9, "u")]⟩

/-- Tasks with distinct sort keys, for the ordering witness. -/
def c9TaskA : Task :=
  ⟨some "a", none, "Alpha", "Open", "Important", none, none, none, none, [], 1⟩

def c9TaskB : Task :=
  ⟨some "b", none, "Beta", "Open", "Not Important", none, none, none, none, [], 2⟩

/-- A minimal environment for the ordering witness. -/
def c9Env : Env :=
  ⟨1, [], some [], fun _ => .error, fun _ => .ok, fun _ => true,
   fun _ => none, fun _ => true, fun n => 900 + n⟩

/-- A task whose name starts with no priority marker. -/
def c10Task : Task :=
  ⟨some "r", none, "Hello", "Open", "Important", none, none, none, none, [], 1⟩

/-- A non-Complete task for the drift-detection witness. -/
def c7Task : Task :=
  ⟨some "d", none, "Drift", "Open", "Important", none, none, none, none, [], 1⟩

/-- A starter message whose content does not match the fresh rendering. -/
def c7Msg : Message := ⟨"stale", [⟨[⟨some "task-complete-d"⟩]⟩]⟩

/-- Thread 3 is live with a matching name; its starter message is
`c7Msg`. -/
def c7Env : Env :=
  ⟨1, [⟨3, 1, "🔴 Drift"⟩], some [], fun _ => .error, fun _ => .ok,
   fun _ => true, fun n => if n = 3 then some c7Msg else none, fun _ => true,
   fun n => 600 + n⟩

/-! ### Association-list lemmas -/

section AListLemmas

variable {κ ν : Type} [DecidableEq κ]

lemma alGet_nil (k : κ) : alGet ([] : List (κ × ν)) k = none := rfl

lemma alGet_cons (a : κ) (b : ν) (m : List (κ × ν)) (k : κ) :
    alGet ((a, b) :: m) k = if a = k then some b else alGet m k := rfl

lemma alInsert_nil (k : κ) (v : ν) : alInsert ([] : List (κ × ν)) k v = [(k, v)] := rfl

lemma alInsert_cons (a : κ) (b : ν) (m : List (κ × ν)) (k : κ) (v : ν) :
    alInsert ((a, b) :: m) k v =
      if a = k then (k, v) :: m else (a, b) :: alInsert m k v := rfl

lemma alErase_nil (k : κ) : alErase ([] : List (κ × ν)) k = [] := rfl

lemma alErase_cons (a : κ) (b : ν) (m : List (κ × ν)) (k : κ) :
    alErase ((a, b) :: m) k = if a = k then m else (a, b) :: alErase m k := rfl

lemma alGet_alInsert_self (m : List (κ × ν)) (k : κ) (v : ν) :
    alGet (alInsert m k v) k = some v := by
  induction m with
  | nil => rw [alInsert_nil, alGet_cons, if_pos rfl]
  | cons a m ih =>
    obtain ⟨a1, a2⟩ := a
    by_cases h : a1 = k
    · rw [alInsert_cons, if_pos h, alGet_cons, if_pos rfl]
    · rw [alInsert_cons, if_neg h, alGet_cons, if_neg h]
      exact ih

lemma alGet_alInsert_ne {k k' : κ} (m : List (κ × ν)) (v : ν) (hne : k' ≠ k) :
    alGet (alInsert m k v) k' = alGet m k' := by
  induction m with
  | nil => rw [alInsert_nil, alGet_cons, if_neg (Ne.symm hne)]
  | cons a m ih =>
    obtain ⟨a1, a2⟩ := a
    by_cases h : a1 = k
    · subst h
      rw [alInsert_cons, if_pos rfl, alGet_cons, if_neg (Ne.symm hne),
        alGet_cons, if_neg (Ne.symm hne)]
    · rw [alInsert_cons, if_neg h, alGet_cons, alGet_cons]
      by_cases h2 : a1 = k'
      · rw [if_pos h2, if_pos h2]
      · rw [if_neg h2, if_neg h2]
        exact ih

lemma alGet_alErase_ne {k k' : κ} (m : List (κ × ν)) (hne : k' ≠ k) :
    alGet (alErase m k) k' = alGet m k' := by
  induction m with
  | nil => rw [alErase_nil]
  | cons a m ih =>
    obtain ⟨a1, a2⟩ := a
    by_cases h : a1 = k
    · subst h
      rw [alErase_cons, if_pos rfl, alGet_cons, if_neg]
      intro hc; exact hne hc.symm
    · rw [alErase_cons, if_neg h, alGet_cons, alGet_cons]
      by_cases h2 : a1 = k'
      · rw [if_pos h2, if_pos h2]
      · rw [if_neg h2, if_neg h2]
        exact ih

lemma alGet_mem {m : List (κ × ν)} {k : κ} {v : ν} (h : alGet m k = some v) :
    (k, v) ∈ m := by
  induction m with
  | nil => rw [alGet_nil] at h; exact Option.noConfusion h
  | cons a m ih =>
    obtain ⟨a1, a2⟩ := a
    by_cases ha : a1 = k
    · subst ha
      rw [alGet_cons, if_pos rfl] at h
      obtain rfl : a2 = v := Option.some.inj h
      exact List.mem_cons_self _ _
    · rw [alGet_cons, if_neg ha] at h
      exact List.mem_cons_of_mem _ (ih h)

lemma alGet_eq_none_iff {m : List (κ × ν)} {k : κ} :
    alGet m k = none ↔ k ∉ m.map Prod.fst := by
  induction m with
  | nil => simp [alGet_nil]
  | cons a m ih =>
    obtain ⟨a1, a2⟩ := a
    rw [alGet_cons]
    by_cases ha : a1 = k
    · subst ha; simp
    · simp only [if_neg ha, List.map_cons, List.mem_cons]
      rw [ih]
      constructor
      · intro h hc
        rcases hc with hc | hc
        · exact ha hc.symm
        · exact h hc
      · intro h hc
        exact h (Or.inr hc)

lemma alGet_of_mem {m : List (κ × ν)} {k : κ} {v : ν}
    (hnd : (m.map Prod.fst).Nodup) (hm : (k, v) ∈ m) : alGet m k = some v := by
  induction m with
  | nil => simp at hm
  | cons a m ih =>
    obtain ⟨a1, a2⟩ := a
    simp only [List.map_cons, List.nodup_cons] at hnd
    rcases List.mem_cons.mp hm with h | h
    · obtain ⟨h1, h2⟩ := Prod.ext_iff.mp h
      simp only at h1 h2
      rw [alGet_cons, if_pos h1.symm, h2]
    · have hk : a1 ≠ k := by
        rintro rfl
        exact hnd.1 (List.mem_map.mpr ⟨(a1, v), h, rfl⟩)
      rw [alGet_cons, if_neg hk]
      exact ih hnd.2 h

lemma mem_keys_of_alGet {m : List (κ × ν)} {k : κ} {v : ν}
    (h : alGet m k = some v) : k ∈ m.map Prod.fst := by
  by_contra hc
  rw [← alGet_eq_none_iff] at hc
  rw [h] at hc
  exact Option.noConfusion hc

lemma mem_values_of_alGet {m : List (κ × ν)} {k : κ} {v : ν}
    (h : alGet m k = some v) : v ∈ m.map Prod.snd :=
  List.mem_map.mpr ⟨(k, v), alGet_mem h, rfl⟩

lemma mem_alInsert {m : List (κ × ν)} {k : κ} {v : ν} {x : κ × ν}
    (h : x ∈ alInsert m k v) : x = (k, v) ∨ x ∈ m := by
  induction m with
  | nil =>
    rw [alInsert_nil] at h
    exact Or.inl (List.mem_singleton.mp h)
  | cons a m ih =>
    obtain ⟨a1, a2⟩ := a
    by_cases ha : a1 = k
    · rw [alInsert_cons, if_pos ha] at h
      rcases List.mem_cons.mp h with h | h
      · exact Or.inl h
      · exact Or.inr (List.mem_cons_of_mem _ h)
    · rw [alInsert_cons, if_neg ha] at h
      rcases List.mem_cons.mp h with h | h
      · subst h; exact Or.inr (List.mem_cons_self _ _)
      · rcases ih h with h' | h'
        · exact Or.inl h'
        · exact Or.inr (List.mem_cons_of_mem _ h')

lemma mem_alErase {m : List (κ × ν)} {k : κ} {x : κ × ν}
    (h : x ∈ alErase m k) : x ∈ m := by
  induction m with
  | nil => rw [alErase_nil] at h; exact absurd h (List.not_mem_nil _)
  | cons a m ih =>
    obtain ⟨a1, a2⟩ := a
    by_cases ha : a1 = k
    · rw [alErase_cons, if_pos ha] at h
      exact List.mem_cons_of_mem _ h
    · rw [alErase_cons, if_neg ha] at h
      rcases List.mem_cons.mp h with h | h
      · subst h; exact List.mem_cons_self _ _
      · exact List.mem_cons_of_mem _ (ih h)

lemma mem_keys_alInsert {m : List (κ × ν)} {k k' : κ} {v : ν}
    (h : k' ∈ (alInsert m k v).map Prod.fst) : k' = k ∨ k' ∈ m.map Prod.fst := by
  obtain ⟨x, hx, hfst⟩ := List.mem_map.mp h
  rcases mem_alInsert hx with h' | h'
  · left; rw [← hfst, h']
  · right; exact List.mem_map.mpr ⟨x, h', hfst⟩

lemma mem_values_alInsert {m : List (κ × ν)} {k : κ} {v v' : ν}
    (h : v' ∈ (alInsert m k v).map Prod.snd) : v' = v ∨ v' ∈ m.map Prod.snd := by
  obtain ⟨x, hx, hsnd⟩ := List.mem_map.mp h
  rcases mem_alInsert hx with h' | h'
  · left; rw [← hsnd, h']
  · right; exact List.mem_map.mpr ⟨x, h', hsnd⟩

lemma mem_keys_alErase {m : List (κ × ν)} {k k' : κ}
    (h : k' ∈ (alErase m k).map Prod.fst) : k' ∈ m.map Prod.fst := by
  obtain ⟨x, hx, hfst⟩ := List.mem_map.mp h
  exact List.mem_map.mpr ⟨x, mem_alErase hx, hfst⟩

lemma mem_values_alErase {m : List (κ × ν)} {k : κ} {v : ν}
    (h : v ∈ (alErase m k).map Prod.snd) : v ∈ m.map Prod.snd := by
  obtain ⟨x, hx, hsnd⟩ := List.mem_map.mp h
  exact List.mem_map.mpr ⟨x, mem_alErase hx, hsnd⟩

lemma mem_alErase_fst_ne {m : List (κ × ν)} {k : κ} {x : κ × ν}
    (hnd : (m.map Prod.fst).Nodup) (h : x ∈ alErase m k) : x.1 ≠ k := by
  induction m with
  | nil => rw [alErase_nil] at h; exact absurd h (List.not_mem_nil _)
  | cons a m ih =>
    obtain ⟨a1, a2⟩ := a
    simp only [List.map_cons, List.nodup_cons] at hnd
    by_cases ha : a1 = k
    · subst ha
      rw [alErase_cons, if_pos rfl] at h
      intro hc
      exact hnd.1 (hc ▸ List.mem_map.mpr ⟨x, h, rfl⟩)
    · rw [alErase_cons, if_neg ha] at h
      rcases List.mem_cons.mp h with h | h
      · subst h; exact ha
      · exact ih hnd.2 h

lemma keys_nodup_alInsert {m : List (κ × ν)} (k : κ) (v : ν)
    (hnd : (m.map Prod.fst).Nodup) : ((alInsert m k v).map Prod.fst).Nodup := by
  induction m with
  | nil => simp [alInsert_nil]
  | cons a m ih =>
    obtain ⟨a1, a2⟩ := a
    simp only [List.map_cons, List.nodup_cons] at hnd
    by_cases ha : a1 = k
    · subst ha
      rw [alInsert_cons, if_pos rfl]
      simp only [List.map_cons, List.nodup_cons]
      exact ⟨hnd.1, hnd.2⟩
    · rw [alInsert_cons, if_neg ha]
      simp only [List.map_cons, List.nodup_cons]
      refine ⟨fun hc => ?_, ih hnd.2⟩
      rcases mem_keys_alInsert hc with h | h
      · exact ha h
      · exact hnd.1 h

lemma keys_nodup_alErase {m : List (κ × ν)} (k : κ)
    (hnd : (m.map Prod.fst).Nodup) : ((alErase m k).map Prod.fst).Nodup := by
  induction m with
  | nil => simp [alErase_nil]
  | cons a m ih =>
    obtain ⟨a1, a2⟩ := a
    simp only [List.map_cons, List.nodup_cons] at hnd
    by_cases ha : a1 = k
    · rw [alErase_cons, if_pos ha]; exact hnd.2
    · rw [alErase_cons, if_neg ha]
      simp only [List.map_cons, List.nodup_cons]
      exact ⟨fun hc => hnd.1 (mem_keys_alErase hc), ih hnd.2⟩

lemma alGet_alErase_self {m : List (κ × ν)} (k : κ)
    (hnd : (m.map Prod.fst).Nodup) : alGet (alErase m k) k = none := by
  induction m with
  | nil => rw [alErase_nil, alGet_nil]
  | cons a m ih =>
    obtain ⟨a1, a2⟩ := a
    simp only [List.map_cons, List.nodup_cons] at hnd
    by_cases ha : a1 = k
    · subst ha
      rw [alErase_cons, if_pos rfl]
      exact alGet_eq_none_iff.mpr hnd.1
    · rw [alErase_cons, if_neg ha, alGet_cons, if_neg ha]
      exact ih hnd.2

end AListLemmas

/-! ### Inverse-invariant lemmas -/

lemma Inv2_erase_pair {A : List (String × Nat)} {B : List (Nat × String)}
    {u : String} {w : Nat} (hinv : Inv2 A B)
    (hndA : (A.map Prod.fst).Nodup) (hndB : (B.map Prod.fst).Nodup)
    (hu : alGet A u = some w) : Inv2 (alErase A u) (alErase B w) := by
  obtain ⟨hf, hr⟩ := hinv
  have hw : alGet B w = some u := hf u w hu
  constructor
  · intro k v h
    by_cases hk : k = u
    · subst hk; rw [alGet_alErase_self _ hndA] at h; exact Option.noConfusion h
    · rw [alGet_alErase_ne _ hk] at h
      have hBv := hf k v h
      have hv : v ≠ w := by
        rintro rfl
        rw [hw] at hBv
        exact hk (Option.some.inj hBv).symm
      rw [alGet_alErase_ne _ hv]
      exact hBv
  · intro v k h
    by_cases hv : v = w
    · subst hv; rw [alGet_alErase_self _ hndB] at h; exact Option.noConfusion h
    · rw [alGet_alErase_ne _ hv] at h
      have hAk := hr v k h
      have hk : k ≠ u := by
        rintro rfl
        rw [hu] at hAk
        exact hv (Option.some.inj hAk).symm
      rw [alGet_alErase_ne _ hk]
      exact hAk

lemma Inv2_insert_pair {A : List (String × Nat)} {B : List (Nat × String)}
    {u : String} {w : Nat} (hinv : Inv2 A B)
    (hu : alGet A u = none) (hw : alGet B w = none) :
    Inv2 (alInsert A u w) (alInsert B w u) := by
  obtain ⟨hf, hr⟩ := hinv
  constructor
  · intro k v h
    by_cases hk : k = u
    · subst hk
      rw [alGet_alInsert_self] at h
      obtain rfl := Option.some.inj h
      exact alGet_alInsert_self _ _ _
    · rw [alGet_alInsert_ne _ _ hk] at h
      have hv : v ≠ w := by
        rintro rfl
        have hc := hf k v h
        rw [hw] at hc
        exact Option.noConfusion hc
      rw [alGet_alInsert_ne _ _ hv]
      exact hf k v h
  · intro v k h
    by_cases hv : v = w
    · subst hv
      rw [alGet_alInsert_self] at h
      obtain rfl := Option.some.inj h
      exact alGet_alInsert_self _ _ _
    · rw [alGet_alInsert_ne _ _ hv] at h
      have hk : k ≠ u := by
        rintro rfl
        have hc := hr v k h
        rw [hu] at hc
        exact Option.noConfusion hc
      rw [alGet_alInsert_ne _ _ hk]
      exact hr v k h

lemma Inv2_migrate {A : List (String × Nat)} {B : List (Nat × String)}
    {leg u : String} {w : Nat} (hinv : Inv2 A B)
    (hndA : (A.map Prod.fst).Nodup)
    (hleg : alGet A leg = some w) (hu : alGet A u = none) :
    Inv2 (alInsert (alErase A leg) u w) (alInsert B w u) := by
  obtain ⟨hf, hr⟩ := hinv
  have hwleg : alGet B w = some leg := hf leg w hleg
  constructor
  · intro k v h
    by_cases hk : k = u
    · subst hk
      rw [alGet_alInsert_self] at h
      obtain rfl := Option.some.inj h
      exact alGet_alInsert_self _ _ _
    · rw [alGet_alInsert_ne _ _ hk] at h
      by_cases hkleg : k = leg
      · subst hkleg
        rw [alGet_alErase_self _ hndA] at h
        exact Option.noConfusion h
      · rw [alGet_alErase_ne _ hkleg] at h
        have hv : v ≠ w := by
          rintro rfl
          have hc := hf k v h
          rw [hwleg] at hc
          exact hkleg (Option.some.inj hc).symm
        rw [alGet_alInsert_ne _ _ hv]
        exact hf k v h
  · intro v k h
    by_cases hv : v = w
    · subst hv
      rw [alGet_alInsert_self] at h
      obtain rfl := Option.some.inj h
      exact alGet_alInsert_self _ _ _
    · rw [alGet_alInsert_ne _ _ hv] at h
      have hAk := hr v k h
      have hk : k ≠ u := by
        rintro rfl
        rw [hu] at hAk
        exact Option.noConfusion hAk
      have hkleg : k ≠ leg := by
        rintro rfl
        rw [hleg] at hAk
        exact hv (Option.some.inj hAk).symm
      rw [alGet_alInsert_ne _ _ hk, alGet_alErase_ne _ hkleg]
      exact hAk

lemma Inv2_injective {A : List (String × Nat)} {B : List (Nat × String)}
    (hinv : Inv2 A B) {k1 k2 : String} {v : Nat}
    (h1 : alGet A k1 = some v) (h2 : alGet A k2 = some v) : k1 = k2 := by
  have e1 := hinv.1 k1 v h1
  have e2 := hinv.1 k2 v h2
  rw [e1] at e2
  exact Option.some.inj e2

/-! ### Helper lemmas about the pass -/

lemma legacyHit_sound {m : List (String × Nat)} {cands : List (Option String)}
    {k : String} {v : Nat} (h : legacyHit m cands = some (k, v)) :
    alGet m k = some v ∧ k ≠ "" := by
  induction cands with
  | nil => exact absurd h (by simp [legacyHit])
  | cons c rest ih =>
    match c with
    | none => exact ih h
    | some k' =>
      by_cases he : k' = ""
      · rw [legacyHit, if_pos he] at h
        exact ih h
      · rw [legacyHit, if_neg he] at h
        cases hg : alGet m k' with
        | none => rw [hg] at h; exact ih h
        | some v' =>
          rw [hg] at h
          obtain ⟨h1, h2⟩ := Prod.ext_iff.mp (Option.some.inj h)
          simp only at h1 h2
          subst h1; subst h2
          exact ⟨hg, he⟩

lemma migrate_hit_canonical {t : Task} {m : SyncState} {v : Nat}
    (h : alGet m.task_to_thread (task_key t) = some v) :
    migrate t m = (some v, m, false) := by
  rw [migrate, h]

lemma migrate_hit_legacy {t : Task} {m : SyncState} {k : String} {v : Nat}
    (h0 : alGet m.task_to_thread (task_key t) = none)
    (h1 : legacyHit m.task_to_thread [t.id, some t.name] = some (k, v)) :
    migrate t m = (some v,
      ⟨alInsert (alErase m.task_to_thread k) (task_key t) v,
       alInsert m.thread_to_task v (task_key t)⟩, true) := by
  rw [migrate, h0, h1]

lemma migrate_miss {t : Task} {m : SyncState}
    (h0 : alGet m.task_to_thread (task_key t) = none)
    (h1 : legacyHit m.task_to_thread [t.id, some t.name] = none) :
    migrate t m = (none, m, false) := by
  rw [migrate, h0, h1]

lemma resolvable_some {env : Env} (hres : Resolvable env) (v : Nat) :
    ∃ th, resolveThread env (buildLive env) v = some th := by
  rcases hres v with h | ⟨th, h⟩
  · obtain ⟨th, hth⟩ := Option.isSome_iff_exists.mp h
    exact ⟨th, by rw [resolveThread, hth]⟩
  · cases hg : alGet (buildLive env) v with
    | some th' => exact ⟨th', by rw [resolveThread, hg]⟩
    | none => exact ⟨th, by rw [resolveThread, hg, h]⟩

lemma inU_mono {env : Env} {m0 : SyncState} {n n' : Nat} (h : n ≤ n') {v : Nat}
    (hv : InU env m0 n v) : InU env m0 n' v := by
  rcases hv with h1 | h1 | ⟨i, hi, hv⟩
  · exact Or.inl h1
  · exact Or.inr (Or.inl h1)
  · exact Or.inr (Or.inr ⟨i, lt_of_lt_of_le hi h, hv⟩)

lemma foldl_preserve {α σ : Type} (P : σ → Prop) (f : σ → α → σ)
    (h : ∀ s x, P s → P (f s x)) :
    ∀ (l : List α) (s : σ), P s → P (l.foldl f s) := by
  intro l
  induction l with
  | nil => intro s hs; exact hs
  | cons x l ih => intro s hs; exact ih _ (h s x hs)

lemma goodState_mk {env : Env} {m0 : SyncState} {A : List (String × Nat)}
    {B : List (Nat × String)} {c : Bool} {n : Nat} {acts : List Action}
    (h1 : Inv2 A B) (h2 : (A.map Prod.fst).Nodup) (h3 : (B.map Prod.fst).Nodup)
    (h4 : ∀ v ∈ A.map Prod.snd, InU env m0 n v)
    (h5 : ∀ v ∈ B.map Prod.fst, InU env m0 n v) :
    GoodState env m0 ⟨⟨A, B⟩, c, n, acts⟩ :=
  ⟨h1, ⟨h2, h3⟩, h4, h5⟩

/-- `processTask` preserves the pass invariant, provided every thread id
resolves and created ids are fresh. -/
lemma processTask_good {env : Env} {m0 : SyncState} (hres : Resolvable env)
    (hfresh : FreshIds env m0) (s : PassState) (t : Task)
    (hs : GoodState env m0 s) :
    GoodState env m0 (processTask env (buildLive env) s t) := by
  obtain ⟨⟨A, B⟩, c, n, acts⟩ := s
  obtain ⟨hinv, ⟨hndA, hndB⟩, hvals, hkeys⟩ := hs
  cases hget : alGet A (task_key t) with
  | some v =>
    have hmig := migrate_hit_canonical (t := t) (m := ⟨A, B⟩) hget
    obtain ⟨th, hth⟩ := resolvable_some hres v
    by_cases hst : t.status = "Complete"
    · have herase : GoodState env m0
          ⟨⟨alErase A (task_key t), alErase B v⟩, true, n,
            acts ++ (removeThread env th).2⟩ :=
        goodState_mk (Inv2_erase_pair hinv hndA hndB hget)
          (keys_nodup_alErase _ hndA) (keys_nodup_alErase _ hndB)
          (fun x hx => hvals x (mem_values_alErase hx))
          (fun x hx => hkeys x (mem_keys_alErase hx))
      rcases hdel : env.deleteResult th.id with _ | _ | _
      · simp only [processTask, hmig, hth, if_pos hst, removeThread, hdel]
        simpa [removeThread, hdel] using herase
      · by_cases harch : env.archiveOk th.id
        · simp only [processTask, hmig, hth, if_pos hst, removeThread, hdel, harch]
          simpa [removeThread, hdel, harch] using herase
        · simp only [processTask, hmig, hth, if_pos hst, removeThread, hdel,
            harch, Bool.false_eq_true, if_false]
          exact goodState_mk hinv hndA hndB hvals hkeys
      · simp only [processTask, hmig, hth, if_pos hst, removeThread, hdel]
        exact goodState_mk hinv hndA hndB hvals hkeys
    · simp only [processTask, hmig, hth, if_neg hst]
      exact goodState_mk hinv hndA hndB hvals hkeys
  | none =>
    cases hhit : legacyHit A [t.id, some t.name] with
    | some p =>
      obtain ⟨leg, v⟩ := p
      have hmig := migrate_hit_legacy (t := t) (m := ⟨A, B⟩) hget hhit
      obtain ⟨hlegGet, hlegne⟩ := legacyHit_sound hhit
      have hinv1 : Inv2 (alInsert (alErase A leg) (task_key t) v) (alInsert B v (task_key t)) :=
        Inv2_migrate hinv hndA hlegGet hget
      have hndA1 := keys_nodup_alInsert (task_key t) v (keys_nodup_alErase leg hndA)
      have hndB1 := keys_nodup_alInsert v (task_key t) hndB
      have hvals1 : ∀ x ∈ (alInsert (alErase A leg) (task_key t) v).map Prod.snd,
          InU env m0 n x := by
        intro x hx
        rcases mem_values_alInsert hx with rfl | hx'
        · exact hvals x (mem_values_of_alGet hlegGet)
        · exact hvals x (mem_values_alErase hx')
      have hkeys1 : ∀ x ∈ (alInsert B v (task_key t)).map Prod.fst,
          InU env m0 n x := by
        intro x hx
        rcases mem_keys_alInsert hx with rfl | hx'
        · exact hvals x (mem_values_of_alGet hlegGet)
        · exact hkeys x hx'
      obtain ⟨th, hth⟩ := resolvable_some hres v
      by_cases hst : t.status = "Complete"
      · have hgetu : alGet (alInsert (alErase A leg) (task_key t) v) (task_key t) = some v :=
          alGet_alInsert_self _ _ _
        have herase : GoodState env m0
            ⟨⟨alErase (alInsert (alErase A leg) (task_key t) v) (task_key t),
              alErase (alInsert B v (task_key t)) v⟩, true, n,
              acts ++ (removeThread env th).2⟩ :=
          goodState_mk (Inv2_erase_pair hinv1 hndA1 hndB1 hgetu)
            (keys_nodup_alErase _ hndA1) (keys_nodup_alErase _ hndB1)
            (fun x hx => hvals1 x (mem_values_alErase hx))
            (fun x hx => hkeys1 x (mem_keys_alErase hx))
        rcases hdel : env.deleteResult th.id with _ | _ | _
        · simp only [processTask, hmig, hth, if_pos hst, removeThread, hdel]
          simpa [removeThread, hdel] using herase
        · by_cases harch : env.archiveOk th.id
          · simp only [processTask, hmig, hth, if_pos hst, removeThread, hdel, harch]
            simpa [removeThread, hdel, harch] using herase
          · simp only [processTask, hmig, hth, if_pos hst, removeThread, hdel,
              harch, Bool.false_eq_true, if_false]
            exact goodState_mk hinv1 hndA1 hndB1 hvals1 hkeys1
        · simp only [processTask, hmig, hth, if_pos hst, removeThread, hdel]
          exact goodState_mk hinv1 hndA1 hndB1 hvals1 hkeys1
      · simp only [processTask, hmig, hth, if_neg hst]
        exact goodState_mk hinv1 hndA1 hndB1 hvals1 hkeys1
    | none =>
      have hmig := migrate_miss (t := t) (m := ⟨A, B⟩) hget hhit
      by_cases hst : t.status = "Complete"
      · simp only [processTask, hmig, if_pos hst, Option.isSome_none,
          Bool.false_eq_true, if_false]
        exact goodState_mk hinv hndA hndB hvals hkeys
      · have hBnone : alGet B (env.createId n) = none := by
          rw [alGet_eq_none_iff]
          intro hc
          rcases hkeys _ hc with h1 | h1 | ⟨i, hi, heq⟩
          · exact (hfresh.2 n).1 h1
          · exact (hfresh.2 n).2 h1
          · exact absurd (hfresh.1 n i heq) (Nat.ne_of_gt hi)
        refine Eq.mpr ?_ (@goodState_mk env m0
          (alInsert A (task_key t) (env.createId n))
          (alInsert B (env.createId n) (task_key t))
          true (n + 1)
          (acts ++ [Action.create (get_thread_name t) (task_content t)])
          (Inv2_insert_pair hinv hget hBnone)
          (keys_nodup_alInsert _ _ hndA) (keys_nodup_alInsert _ _ hndB)
          (fun x hx => by
            rcases mem_values_alInsert hx with rfl | hx'
            · exact Or.inr (Or.inr ⟨n, Nat.lt_succ_self n, rfl⟩)
            · exact inU_mono (Nat.le_succ n) (hvals x hx'))
          (fun x hx => by
            rcases mem_keys_alInsert hx with rfl | hx'
            · exact Or.inr (Or.inr ⟨n, Nat.lt_succ_self n, rfl⟩)
            · exact inU_mono (Nat.le_succ n) (hkeys x hx')))
        simp only [processTask, hmig, if_neg hst]

/-- The reverse scan preserves the pass invariant. -/
lemma reverseStep_good {env : Env} {m0 : SyncState} {u2t : List (String × Task)}
    (s : PassState) (p : Nat × Thread) (hs : GoodState env m0 s) :
    GoodState env m0 (reverseStep env u2t s p) := by
  obtain ⟨⟨A, B⟩, c, n, acts⟩ := s
  obtain ⟨hinv, ⟨hndA, hndB⟩, hvals, hkeys⟩ := hs
  cases hB : alGet B p.1 with
  | none =>
    simp only [reverseStep, hB]
    exact goodState_mk hinv hndA hndB hvals hkeys
  | some k =>
    by_cases hke : k = ""
    · simp only [reverseStep, hB, if_pos hke]
      exact goodState_mk hinv hndA hndB hvals hkeys
    · cases hu : alGet u2t k with
      | none =>
        simp only [reverseStep, hB, if_neg hke, hu]
        exact goodState_mk hinv hndA hndB hvals hkeys
      | some mt =>
        by_cases hst : mt.status = "Complete"
        · have hA : alGet A k = some p.1 := hinv.2 p.1 k hB
          have herase : GoodState env m0
              ⟨⟨alErase A k, alErase B p.1⟩, true, n,
                acts ++ (removeThread env p.2).2⟩ :=
            goodState_mk (Inv2_erase_pair hinv hndA hndB hA)
              (keys_nodup_alErase _ hndA) (keys_nodup_alErase _ hndB)
              (fun x hx => hvals x (mem_values_alErase hx))
              (fun x hx => hkeys x (mem_keys_alErase hx))
          rcases hdel : env.deleteResult p.2.id with _ | _ | _
          · simp only [reverseStep, hB, if_neg hke, hu, if_pos hst,
              removeThread, hdel]
            simpa [removeThread, hdel] using herase
          · by_cases harch : env.archiveOk p.2.id
            · simp only [reverseStep, hB, if_neg hke, hu, if_pos hst,
                removeThread, hdel, harch]
              simpa [removeThread, hdel, harch] using herase
            · simp only [reverseStep, hB, if_neg hke, hu, if_pos hst,
                removeThread, hdel, harch, Bool.false_eq_true, if_false]
              exact goodState_mk hinv hndA hndB hvals hkeys
          · simp only [reverseStep, hB, if_neg hke, hu, if_pos hst,
              removeThread, hdel]
            exact goodState_mk hinv hndA hndB hvals hkeys
        · simp only [reverseStep, hB, if_neg hke, hu, if_neg hst]
          exact goodState_mk hinv hndA hndB hvals hkeys

/-- The orphan sweep preserves the pass invariant, folded over a
snapshot of `task_to_thread` whose entries are still live in the state
(which is how the sweep is invoked). -/
lemma orphan_fold_good {env : Env} {m0 : SyncState} {live : List (Nat × Thread)}
    {u2t : List (String × Task)} :
    ∀ (rem : List (String × Nat)) (s : PassState),
      GoodState env m0 s →
      (∀ p ∈ rem, alGet s.maps.task_to_thread p.1 = some p.2) →
      (rem.map Prod.fst).Nodup →
      GoodState env m0 (rem.foldl (orphanStep env live u2t) s) := by
  intro rem
  induction rem with
  | nil => intro s hs _ _; exact hs
  | cons p rem ih =>
    intro s hs hget hnd
    simp only [List.map_cons, List.nodup_cons] at hnd
    have hp := hget p (List.mem_cons_self _ _)
    obtain ⟨⟨A, B⟩, c, n, acts⟩ := s
    obtain ⟨hinv, ⟨hndA, hndB⟩, hvals, hkeys⟩ := hs
    simp only [List.foldl_cons]
    have htail : ∀ q ∈ rem, q.1 ≠ p.1 := by
      intro q hq hc
      exact hnd.1 (hc ▸ List.mem_map.mpr ⟨q, hq, rfl⟩)
    by_cases hu : (alGet u2t p.1).isSome
    · have hid : orphanStep env live u2t ⟨⟨A, B⟩, c, n, acts⟩ p =
          ⟨⟨A, B⟩, c, n, acts⟩ := by
        simp [orphanStep, hu]
      rw [hid]
      exact ih _ (goodState_mk hinv hndA hndB hvals hkeys)
        (fun q hq => hget q (List.mem_cons_of_mem _ hq)) hnd.2
    · have herase : GoodState env m0
          (⟨⟨alErase A p.1, alErase B p.2⟩, true, n, acts⟩ : PassState) →
          True := fun _ => trivial
      have hgoodErase : ∀ acts2 : List Action, GoodState env m0
          ⟨⟨alErase A p.1, alErase B p.2⟩, true, n, acts2⟩ :=
        fun acts2 =>
          goodState_mk (Inv2_erase_pair hinv hndA hndB hp)
            (keys_nodup_alErase _ hndA) (keys_nodup_alErase _ hndB)
            (fun x hx => hvals x (mem_values_alErase hx))
            (fun x hx => hkeys x (mem_keys_alErase hx))
      have hgetErase : ∀ q ∈ rem, alGet (alErase A p.1) q.1 = some q.2 := by
        intro q hq
        rw [alGet_alErase_ne _ (htail q hq)]
        exact hget q (List.mem_cons_of_mem _ hq)
      cases hrt : resolveThread env live p.2 with
      | none =>
        have hstep : orphanStep env live u2t ⟨⟨A, B⟩, c, n, acts⟩ p =
            ⟨⟨alErase A p.1, alErase B p.2⟩, true, n, acts ++ []⟩ := by
          simp [orphanStep, hu, hrt]
        rw [hstep]
        exact ih _ (hgoodErase _) hgetErase hnd.2
      | some th =>
        rcases hdel : env.deleteResult th.id with _ | _ | _
        · have hstep : orphanStep env live u2t ⟨⟨A, B⟩, c, n, acts⟩ p =
              ⟨⟨alErase A p.1, alErase B p.2⟩, true, n,
                acts ++ [Action.delete th.id]⟩ := by
            simp [orphanStep, hu, hrt, removeThread, hdel]
          rw [hstep]
          exact ih _ (hgoodErase _) hgetErase hnd.2
        · by_cases harch : env.archiveOk th.id
          · have hstep : orphanStep env live u2t ⟨⟨A, B⟩, c, n, acts⟩ p =
                ⟨⟨alErase A p.1, alErase B p.2⟩, true, n,
                  acts ++ [Action.delete th.id, Action.archive th.id]⟩ := by
              simp [orphanStep, hu, hrt, removeThread, hdel, harch]
            rw [hstep]
            exact ih _ (hgoodErase _) hgetErase hnd.2
          · have hstep : orphanStep env live u2t ⟨⟨A, B⟩, c, n, acts⟩ p =
                ⟨⟨A, B⟩, c, n,
                  acts ++ [Action.delete th.id, Action.archive th.id]⟩ := by
              simp [orphanStep, hu, hrt, removeThread, hdel, harch]
            rw [hstep]
            exact ih _ (goodState_mk hinv hndA hndB hvals hkeys)
              (fun q hq => hget q (List.mem_cons_of_mem _ hq)) hnd.2
        · have hstep : orphanStep env live u2t ⟨⟨A, B⟩, c, n, acts⟩ p =
              ⟨⟨A, B⟩, c, n, acts ++ [Action.delete th.id]⟩ := by
            simp [orphanStep, hu, hrt, removeThread, hdel]
          rw [hstep]
          exact ih _ (goodState_mk hinv hndA hndB hvals hkeys)
            (fun q hq => hget q (List.mem_cons_of_mem _ hq)) hnd.2

lemma Inv2_of_lists {A : List (String × Nat)} {B : List (Nat × String)}
    (h1 : ∀ p ∈ A, alGet B p.2 = some p.1) (h2 : ∀ q ∈ B, alGet A q.2 = some q.1) :
    Inv2 A B :=
  ⟨fun _ _ h => h1 _ (alGet_mem h), fun _ _ h => h2 _ (alGet_mem h)⟩

/-! ### Claim theorems -/

/-- C1, counterexample: with the mutual-inverse initial mapping
`{"u" ↦ 100}` / `{100 ↦ "u"}` and an environment in which thread `100`
is neither in the index nor fetchable, one pass over the single
non-Complete task creates a replacement thread and overwrites
`task_to_thread["u"]` without clearing `thread_to_task[100]`, so the two
maps are not mutual inverses afterwards. -/
theorem sync_bijection_cx :
    Inv c1Maps ∧ NodupKeys c1Maps ∧
      ¬ Inv (sync_from_database c1Env [c1Task] c1Maps).maps := by
  refine ⟨Inv2_of_lists (by decide) (by decide), by constructor <;> decide, ?_⟩
  intro hIn
  have e : (sync_from_database c1Env [c1Task] c1Maps).maps =
      ⟨[("u", 200)], [(100, "u"), (200, "u")]⟩ := by decide
  rw [e] at hIn
  have h := hIn.2 100 "u" (by decide)
  have h2 : alGet [("u", 200)] "u" = some 200 := by decide
  rw [h2] at h
  exact absurd (Option.some.inj h) (by decide)

/-- C1, amended: the claim as stated fails when a mapped thread of a
non-Complete task cannot be resolved (see `sync_bijection_cx`); under
the added assumptions that every thread id resolves (index hit or
successful fetch) and that created thread ids are fresh, one full
reconciliation pass preserves the mutual-inverse property, and no two
task keys map to the same thread id. -/
theorem sync_bijection_of_resolvable (env : Env) (tasks : List Task) (m : SyncState)
    (hinv : Inv m) (hnd : NodupKeys m) (hres : Resolvable env)
    (hfresh : FreshIds env m) :
    Inv (sync_from_database env tasks m).maps ∧
      ∀ k1 k2 v,
        alGet (sync_from_database env tasks m).maps.task_to_thread k1 = some v →
        alGet (sync_from_database env tasks m).maps.task_to_thread k2 = some v →
        k1 = k2 := by
  have hgood0 : GoodState env m ⟨m, false, 0, []⟩ := by
    refine ⟨hinv, hnd, ?_, ?_⟩
    · intro v hv; exact Or.inl hv
    · intro v hv; exact Or.inr (Or.inl hv)
  have h1 := foldl_preserve (GoodState env m) (processTask env (buildLive env))
    (fun s x hs => processTask_good hres hfresh s x hs) (sortTasks tasks) _ hgood0
  have h2 := foldl_preserve (GoodState env m)
    (reverseStep env (buildUuidToTask (sortTasks tasks)))
    (fun s x hs => reverseStep_good s x hs) (buildLive env) _ h1
  have h3 := @orphan_fold_good env m (buildLive env)
    (buildUuidToTask (sortTasks tasks)) _ _ h2
    (fun p hp => alGet_of_mem h2.2.1.1 hp) h2.2.1.1
  have hfin : GoodState env m (sync_from_database env tasks m) := h3
  exact ⟨hfin.1, fun k1 k2 v ha hb => Inv2_injective hfin.1 ha hb⟩

/-- C1 witness: the amended theorem applied to a concrete resolvable
environment, a single task and the empty mapping. -/
theorem sync_bijection_of_resolvable_witness :
    Inv (⟨[], []⟩ : SyncState) ∧ Resolvable c1wEnv ∧
      Inv (sync_from_database c1wEnv [c1Task] ⟨[], []⟩).maps := by
  have hinv : Inv (⟨[], []⟩ : SyncState) := Inv2_of_lists (by decide) (by decide)
  have hres : Resolvable c1wEnv := fun tid => Or.inr ⟨⟨tid, 1, "t"⟩, rfl⟩
  have hfresh : FreshIds c1wEnv ⟨[], []⟩ := by
    refine ⟨fun i j h => ?_, fun i => ⟨?_, ?_⟩⟩
    · simp only [c1wEnv] at h; omega
    · simp
    · simp
  exact ⟨hinv, hres,
    (sync_bijection_of_resolvable c1wEnv [c1Task] ⟨[], []⟩ hinv
      (by constructor <;> decide) hres hfresh).1⟩

/-- C3: for a Complete task whose mapped thread resolves to a live
thread object, the pass attempts delete; on a permission failure it
archives and locks instead; in either success case both mapping
directions for the task are removed and the mapping marked dirty; on any
other delete failure, or on archive failure after a permission error,
the mapping is left unchanged. -/
theorem complete_removal_cases (env : Env) (s : PassState) (t : Task) (tid : Nat)
    (th : Thread) (hst : t.status = "Complete")
    (htid : alGet s.maps.task_to_thread (task_key t) = some tid)
    (hth : resolveThread env (buildLive env) tid = some th) :
    (env.deleteResult th.id = CallResult.ok →
      processTask env (buildLive env) s t =
        ⟨⟨alErase s.maps.task_to_thread (task_key t),
          alErase s.maps.thread_to_task tid⟩,
         true, s.nCreated, s.actions ++ [Action.delete th.id]⟩) ∧
    (env.deleteResult th.id = CallResult.forbidden → env.archiveOk th.id = true →
      processTask env (buildLive env) s t =
        ⟨⟨alErase s.maps.task_to_thread (task_key t),
          alErase s.maps.thread_to_task tid⟩,
         true, s.nCreated,
         s.actions ++ [Action.delete th.id, Action.archive th.id]⟩) ∧
    (env.deleteResult th.id = CallResult.forbidden → env.archiveOk th.id = false →
      processTask env (buildLive env) s t =
        ⟨s.maps, s.changed, s.nCreated,
         s.actions ++ [Action.delete th.id, Action.archive th.id]⟩) ∧
    (env.deleteResult th.id = CallResult.error →
      processTask env (buildLive env) s t =
        ⟨s.maps, s.changed, s.nCreated, s.actions ++ [Action.delete th.id]⟩) := by
  obtain ⟨⟨A, B⟩, c, n, acts⟩ := s
  have hmig := migrate_hit_canonical (t := t) (m := ⟨A, B⟩) htid
  refine ⟨fun hdel => ?_, fun hdel harch => ?_, fun hdel harch => ?_,
    fun hdel => ?_⟩
  · simp [processTask, hmig, hth, hst, removeThread, hdel]
  · simp [processTask, hmig, hth, hst, removeThread, hdel, harch]
  · simp [processTask, hmig, hth, hst, removeThread, hdel, harch]
  · simp [processTask, hmig, hth, hst, removeThread, hdel]

/-- C3 witness: the successful-delete case at concrete inputs. -/
theorem complete_removal_cases_witness :
    c3Task.status = "Complete" ∧
    alGet [("w3", 9)] (task_key c3Task) = some 9 ∧
    resolveThread c3Env (buildLive c3Env) 9 = some ⟨9, 1, "x"⟩ ∧
    c3Env.deleteResult 9 = CallResult.ok ∧
    processTask c3Env (buildLive c3Env)
        ⟨⟨[("w3", 9)], [(9, "w3")]⟩, false, 0, []⟩ c3Task =
      ⟨⟨alErase [("w3", 9)] (task_key c3Task), alErase [(9, "w3")] 9⟩,
       true, 0, [] ++ [Action.delete 9]⟩ := by
  refine ⟨by decide, by decide, by decide, by decide, ?_⟩
  exact (complete_removal_cases c3Env ⟨⟨[("w3", 9)], [(9, "w3")]⟩, false, 0, []⟩
    c3Task 9 ⟨9, 1, "x"⟩ (by decide) (by decide) (by decide)).1 (by decide)

/-- C5, counterexample: a Complete task whose mapped thread is neither
in the merged index nor fetchable (the fetch raises) has both mapping
entries removed by the pass, not left unchanged. -/
theorem fetch_failure_cx :
    c5Task.status = "Complete" ∧
    alGet c5Maps.task_to_thread (task_key c5Task) = some 5 ∧
    alGet (buildLive c5Env) 5 = none ∧
    c5Env.fetchChannel 5 = FetchResult.error ∧
    alGet (sync_from_database c5Env [c5Task] c5Maps).maps.task_to_thread
      (task_key c5Task) = none ∧
    alGet (sync_from_database c5Env [c5Task] c5Maps).maps.thread_to_task 5 =
      none := by
  decide

/-- C5, amended: when a mapped thread id misses the index and the direct
fetch fails, the pass issues no delete or archive call for it in the
main loop, but it does not leave the task's entries unchanged: for a
Complete task both entries are cleared (stale-mapping cleanup); for a
non-Complete task a new thread is created, `task_to_thread` is rewritten
to the new id, and a reverse entry is added. -/
theorem fetch_failure_behavior (env : Env) (s : PassState) (t : Task) (tid : Nat)
    (htid : alGet s.maps.task_to_thread (task_key t) = some tid)
    (hlive : alGet (buildLive env) tid = none)
    (hfetch : env.fetchChannel tid = FetchResult.error) :
    (t.status = "Complete" →
      processTask env (buildLive env) s t =
        ⟨⟨alErase s.maps.task_to_thread (task_key t),
          alErase s.maps.thread_to_task tid⟩,
         true, s.nCreated, s.actions⟩) ∧
    (t.status ≠ "Complete" →
      processTask env (buildLive env) s t =
        ⟨⟨alInsert s.maps.task_to_thread (task_key t) (env.createId s.nCreated),
          alInsert s.maps.thread_to_task (env.createId s.nCreated) (task_key t)⟩,
         true, s.nCreated + 1,
         s.actions ++ [Action.create (get_thread_name t) (task_content t)]⟩) := by
  obtain ⟨⟨A, B⟩, c, n, acts⟩ := s
  have hmig := migrate_hit_canonical (t := t) (m := ⟨A, B⟩) htid
  have hrt : resolveThread env (buildLive env) tid = none := by
    rw [resolveThread, hlive, hfetch]
  constructor
  · intro hst
    simp [processTask, hmig, hrt, hst]
  · intro hst
    simp [processTask, hmig, hrt, hst]

/-- C5 witness: the Complete case of the amended theorem at concrete
inputs. -/
theorem fetch_failure_behavior_witness :
    alGet c5Maps.task_to_thread (task_key c5Task) = some 5 ∧
    alGet (buildLive c5Env) 5 = none ∧
    c5Env.fetchChannel 5 = FetchResult.error ∧
    processTask c5Env (buildLive c5Env) ⟨c5Maps, false, 0, []⟩ c5Task =
      ⟨⟨alErase c5Maps.task_to_thread (task_key c5Task),
        alErase c5Maps.thread_to_task 5⟩, true, 0, []⟩ := by
  refine ⟨by decide, by decide, by decide, ?_⟩
  exact (fetch_failure_behavior c5Env ⟨c5Maps, false, 0, []⟩ c5Task 5
    (by decide) (by decide) (by decide)).1 (by decide)

/-- C6, counterexample: an orphan entry whose thread resolves but whose
delete call fails with a generic error is kept, not cleared, by the
sweep. -/
theorem orphan_sweep_cx :
    alGet (buildUuidToTask (sortTasks [])) "ghost" = none ∧
    resolveThread c6Env (buildLive c6Env) 7 = some ⟨7, 1, "x"⟩ ∧
    c6Env.deleteResult 7 = CallResult.error ∧
    alGet (sync_from_database c6Env [] c6Maps).maps.task_to_thread "ghost" =
      some 7 ∧
    alGet (sync_from_database c6Env [] c6Maps).maps.thread_to_task 7 =
      some "ghost" := by
  decide

/-- C6, amended: for a mapping entry whose task key is absent from the
task set, the sweep step removes the thread and clears both mapping
directions when it resolves and the delete succeeds, or when delete is
forbidden and the archive fallback succeeds; when the thread cannot be
resolved at all it still clears both directions without any remote call;
on a generic delete failure, or archive failure after a permission
error, the entry is kept for the next pass.  (The step is a total
function: no case raises.) -/
theorem orphan_sweep_cases (env : Env) (live : List (Nat × Thread))
    (u2t : List (String × Task)) (s : PassState) (k : String) (tid : Nat)
    (horph : alGet u2t k = none) :
    (resolveThread env live tid = none →
      orphanStep env live u2t s (k, tid) =
        ⟨⟨alErase s.maps.task_to_thread k, alErase s.maps.thread_to_task tid⟩,
         true, s.nCreated, s.actions⟩) ∧
    (∀ th, resolveThread env live tid = some th →
      (env.deleteResult th.id = CallResult.ok →
        orphanStep env live u2t s (k, tid) =
          ⟨⟨alErase s.maps.task_to_thread k, alErase s.maps.thread_to_task tid⟩,
           true, s.nCreated, s.actions ++ [Action.delete th.id]⟩) ∧
      (env.deleteResult th.id = CallResult.forbidden →
        env.archiveOk th.id = true →
        orphanStep env live u2t s (k, tid) =
          ⟨⟨alErase s.maps.task_to_thread k, alErase s.maps.thread_to_task tid⟩,
           true, s.nCreated,
           s.actions ++ [Action.delete th.id, Action.archive th.id]⟩) ∧
      (env.deleteResult th.id = CallResult.forbidden →
        env.archiveOk th.id = false →
        orphanStep env live u2t s (k, tid) =
          ⟨s.maps, s.changed, s.nCreated,
           s.actions ++ [Action.delete th.id, Action.archive th.id]⟩) ∧
      (env.deleteResult th.id = CallResult.error →
        orphanStep env live u2t s (k, tid) =
          ⟨s.maps, s.changed, s.nCreated,
           s.actions ++ [Action.delete th.id]⟩)) := by
  obtain ⟨⟨A, B⟩, c, n, acts⟩ := s
  refine ⟨fun hrt => ?_, fun th hrt =>
    ⟨fun hdel => ?_, fun hdel harch => ?_, fun hdel harch => ?_, fun hdel => ?_⟩⟩
  · simp [orphanStep, horph, hrt]
  · simp [orphanStep, horph, hrt, removeThread, hdel]
  · simp [orphanStep, horph, hrt, removeThread, hdel, harch]
  · simp [orphanStep, horph, hrt, removeThread, hdel, harch]
  · simp [orphanStep, horph, hrt, removeThread, hdel]

/-- C6 witness: the generic-delete-failure case at concrete inputs. -/
theorem orphan_sweep_cases_witness :
    alGet ([] : List (String × Task)) "ghost" = none ∧
    resolveThread c6Env (buildLive c6Env) 7 = some ⟨7, 1, "x"⟩ ∧
    c6Env.deleteResult 7 = CallResult.error ∧
    orphanStep c6Env (buildLive c6Env) [] ⟨c6Maps, false, 0, []⟩ ("ghost", 7) =
      ⟨c6Maps, false, 0, [] ++ [Action.delete 7]⟩ := by
  refine ⟨by decide, by decide, by decide, ?_⟩
  exact ((orphan_sweep_cases c6Env (buildLive c6Env) [] ⟨c6Maps, false, 0, []⟩
    "ghost" 7 (by decide)).2 ⟨7, 1, "x"⟩ (by decide)).2.2.2 (by decide)

/-- The number of starter-message edit calls issued by the
starter-refresh step, when the starter message is fetched. -/
lemma countP_starterActs (env : Env) (u : String) (t : Task) (content : String)
    (th : Thread) (msg : Message) (hmsg : env.fetchMessage th.id = some msg) :
    (starterActs env u t content th).countP Action.isEditMsg =
      if msg.content ≠ content ∨ msg.components.isEmpty = true ∨
          expectedIds u t.subtasks ≠ actualIds msg
        then 1 else 0 := by
  simp only [starterActs, hmsg]
  by_cases hc : msg.content ≠ content ∨ msg.components.isEmpty = true ∨
      expectedIds u t.subtasks ≠ actualIds msg
  · rw [if_pos hc, if_pos hc]
    split <;> rfl
  · rw [if_neg hc, if_neg hc]
    rfl

/-- C7: for a non-Complete task with a resolved thread and a fetched
starter message, the pass issues exactly one starter-message edit call
when the content differs from the fresh rendering, or the message has no
components, or the control-id set differs from the expected set, and
zero edit calls otherwise. -/
theorem content_drift_edit_count (env : Env) (s : PassState) (t : Task) (tid : Nat)
    (th : Thread) (msg : Message) (hst : t.status ≠ "Complete")
    (htid : alGet s.maps.task_to_thread (task_key t) = some tid)
    (hth : resolveThread env (buildLive env) tid = some th)
    (hmsg : env.fetchMessage th.id = some msg) :
    (processTask env (buildLive env) s t).actions.countP Action.isEditMsg =
      s.actions.countP Action.isEditMsg +
        (if msg.content ≠ task_content t ∨ msg.components.isEmpty = true ∨
            expectedIds (task_key t) t.subtasks ≠ actualIds msg
          then 1 else 0) := by
  obtain ⟨⟨A, B⟩, c, n, acts⟩ := s
  have hmig := migrate_hit_canonical (t := t) (m := ⟨A, B⟩) htid
  have hcount := countP_starterActs env (task_key t) t (task_content t) th msg hmsg
  have hrc : (if th.name ≠ get_thread_name t
      then [Action.rename th.id (get_thread_name t)] else []).countP
      Action.isEditMsg = 0 := by
    split <;> rfl
  simp only [processTask, hmig, hth, if_neg hst, List.countP_append, hrc, hcount,
    Nat.add_zero]

lemma alErase_not_mem {κ ν : Type} [DecidableEq κ] {m : List (κ × ν)} {k : κ}
    (h : k ∉ m.map Prod.fst) : alErase m k = m := by
  induction m with
  | nil => rfl
  | cons a m ih =>
    obtain ⟨a1, a2⟩ := a
    simp only [List.map_cons, List.mem_cons, not_or] at h
    rw [alErase_cons, if_neg (fun hc => h.1 hc.symm), ih h.2]

lemma alGet_alErase_of_none {κ ν : Type} [DecidableEq κ] {m : List (κ × ν)}
    {k k' : κ} (h : alGet m k = none) : alGet (alErase m k') k = none := by
  by_cases hk : k = k'
  · subst hk
    rw [alErase_not_mem (alGet_eq_none_iff.mp h)]
    exact h
  · rw [alGet_alErase_ne _ hk]
    exact h

lemma foldl_fixed {α σ : Type} (f : σ → α → σ) (hid : ∀ s x, f s x = s) :
    ∀ (l : List α) (s : σ), l.foldl f s = s := by
  intro l
  induction l with
  | nil => intro s; rfl
  | cons x l ih => intro s; rw [List.foldl_cons, hid s x]; exact ih s

/-- When no key resolves to a Complete task, the reverse scan is the
identity. -/
lemma reverseStep_skip {env : Env} {u2t : List (String × Task)}
    (hall : ∀ k mt, alGet u2t k = some mt → mt.status ≠ "Complete")
    (s : PassState) (p : Nat × Thread) : reverseStep env u2t s p = s := by
  cases hB : alGet s.maps.thread_to_task p.1 with
  | none => simp [reverseStep, hB]
  | some k =>
    by_cases hke : k = ""
    · simp [reverseStep, hB, hke]
    · cases hu : alGet u2t k with
      | none => simp [reverseStep, hB, hke, hu]
      | some mt => simp [reverseStep, hB, hke, hu, hall k mt hu]

lemma no_create_removeThread (env : Env) (th : Thread) :
    ∀ a ∈ (removeThread env th).2, a.isCreate = false := by
  intro a ha
  rcases hdel : env.deleteResult th.id with _ | _ | _
  · simp only [removeThread, hdel, List.mem_singleton] at ha
    subst ha; rfl
  · by_cases harch : env.archiveOk th.id
    · simp only [removeThread, hdel, harch, if_true] at ha
      rcases List.mem_cons.mp ha with rfl | ha2
      · rfl
      · simp only [List.mem_singleton] at ha2; subst ha2; rfl
    · simp only [removeThread, hdel, harch, Bool.false_eq_true, if_false] at ha
      rcases List.mem_cons.mp ha with rfl | ha2
      · rfl
      · simp only [List.mem_singleton] at ha2; subst ha2; rfl
  · simp only [removeThread, hdel, List.mem_singleton] at ha
    subst ha; rfl

lemma no_create_starterActs (env : Env) (u : String) (t : Task) (content : String)
    (th : Thread) : ∀ a ∈ starterActs env u t content th, a.isCreate = false := by
  intro a ha
  rcases hm : env.fetchMessage th.id with _ | msg
  · simp only [starterActs, hm, List.mem_singleton] at ha
    subst ha; rfl
  · simp only [starterActs, hm] at ha
    split at ha
    · split at ha
      · simp only [List.mem_singleton] at ha; subst ha; rfl
      · rcases List.mem_cons.mp ha with rfl | ha2
        · rfl
        · simp only [List.mem_singleton] at ha2; subst ha2; rfl
    · simp at ha

/-- Every orphan-sweep step either leaves the state alone, or erases the
processed pair (marking dirty), or only appends removal actions; it
never creates a thread. -/
lemma orphanStep_shape (env : Env) (live : List (Nat × Thread))
    (u2t : List (String × Task)) (s : PassState) (p : String × Nat) :
    orphanStep env live u2t s p = s ∨
    ∃ acts2, (∀ a ∈ acts2, a.isCreate = false) ∧
      (orphanStep env live u2t s p =
          ⟨⟨alErase s.maps.task_to_thread p.1, alErase s.maps.thread_to_task p.2⟩,
           true, s.nCreated, s.actions ++ acts2⟩ ∨
        orphanStep env live u2t s p =
          ⟨s.maps, s.changed, s.nCreated, s.actions ++ acts2⟩) := by
  by_cases hu : (alGet u2t p.1).isSome
  · left
    simp [orphanStep, hu]
  · right
    cases hrt : resolveThread env live p.2 with
    | none =>
      refine ⟨[], by simp, Or.inl ?_⟩
      simp [orphanStep, hu, hrt]
    | some th =>
      refine ⟨(removeThread env th).2, no_create_removeThread env th, ?_⟩
      rcases hremoved : (removeThread env th).1 with _ | _
      · right
        simp [orphanStep, hu, hrt, hremoved]
      · left
        simp [orphanStep, hu, hrt, hremoved]

/-- Through the orphan sweep, a pair whose key is in the task set keeps
both its entries, a key that was absent stays absent, the dirty flag
stays set, and no create action is appended. -/
lemma orphan_fold_c4 {env : Env} {live : List (Nat × Thread)}
    {u2t : List (String × Task)} {u leg : String} {tid : Nat}
    (husome : (alGet u2t u).isSome = true) :
    ∀ (rem : List (String × Nat)) (s : PassState),
      (∀ p ∈ rem, p.1 ≠ u → p.2 ≠ tid) →
      alGet s.maps.task_to_thread u = some tid →
      alGet s.maps.task_to_thread leg = none →
      alGet s.maps.thread_to_task tid = some u →
      s.changed = true →
      (∀ a ∈ s.actions, a.isCreate = false) →
      alGet (rem.foldl (orphanStep env live u2t) s).maps.task_to_thread u =
          some tid ∧
        alGet (rem.foldl (orphanStep env live u2t) s).maps.task_to_thread leg =
          none ∧
        alGet (rem.foldl (orphanStep env live u2t) s).maps.thread_to_task tid =
          some u ∧
        (rem.foldl (orphanStep env live u2t) s).changed = true ∧
        ∀ a ∈ (rem.foldl (orphanStep env live u2t) s).actions,
          a.isCreate = false := by
  intro rem
  induction rem with
  | nil => intro s _ h2 h3 h4 h5 h6; exact ⟨h2, h3, h4, h5, h6⟩
  | cons p rem ih =>
    intro s hcond hu hleg htid hch hnc
    simp only [List.foldl_cons]
    by_cases hpu : p.1 = u
    · have hskip : orphanStep env live u2t s p = s := by
        simp [orphanStep, hpu, husome]
      rw [hskip]
      exact ih s (fun q hq => hcond q (List.mem_cons_of_mem _ hq)) hu hleg htid
        hch hnc
    · have hpv : p.2 ≠ tid := hcond p (List.mem_cons_self _ _) hpu
      rcases orphanStep_shape env live u2t s p with hsame | ⟨acts2, hnc2, hcase⟩
      · rw [hsame]
        exact ih s (fun q hq => hcond q (List.mem_cons_of_mem _ hq)) hu hleg htid
          hch hnc
      · rcases hcase with herase | hkeep
        · rw [herase]
          refine ih _ (fun q hq => hcond q (List.mem_cons_of_mem _ hq)) ?_ ?_ ?_
            rfl ?_
          · rw [alGet_alErase_ne _ (Ne.symm hpu)]
            exact hu
          · exact alGet_alErase_of_none hleg
          · rw [alGet_alErase_ne _ (Ne.symm hpv)]
            exact htid
          · intro a ha
            rcases List.mem_append.mp ha with h | h
            · exact hnc a h
            · exact hnc2 a h
        · rw [hkeep]
          refine ih _ (fun q hq => hcond q (List.mem_cons_of_mem _ hq)) hu hleg
            htid hch ?_
          intro a ha
          rcases List.mem_append.mp ha with h | h
          · exact hnc a h
          · exact hnc2 a h

/-- C4, counterexample: for a Complete task reporting a uuid with a
legacy-keyed mapping entry, the pass migrates the entry and then removes
it together with the thread, so at the end of the pass the uuid key is
absent — the claim's "installs the same thread id under the uuid key"
fails. -/
theorem legacy_migration_cx :
    truthy c4Task.uuid = true ∧
    c4Task.status = "Complete" ∧
    alGet c4Maps.task_to_thread (task_key c4Task) = none ∧
    legacyHit c4Maps.task_to_thread [c4Task.id, some c4Task.name] =
      some ("legacy", 5) ∧
    alGet (sync_from_database c4Env [c4Task] c4Maps).maps.task_to_thread
      (task_key c4Task) = none := by
  decide

/-- C4, amended: restricted to a non-Complete task whose migrated thread
resolves (otherwise the completion removal or a replacement creation
kicks in, see `legacy_migration_cx`), and to a well-formed mutual-inverse
mapping: one pass over the task leaves the thread id installed under the
uuid key, the probed legacy key absent, the reverse entry pointing to the
uuid key, the mapping dirty (hence saved), and no thread is created. -/
theorem legacy_migration_pass (env : Env) (m : SyncState) (t : Task) (leg : String)
    (tid : Nat) (th : Thread)
    (hinv : Inv m) (hnd : NodupKeys m)
    (_huuid : truthy t.uuid = true)
    (habs : alGet m.task_to_thread (task_key t) = none)
    (hleg : legacyHit m.task_to_thread [t.id, some t.name] = some (leg, tid))
    (hst : t.status ≠ "Complete")
    (hth : resolveThread env (buildLive env) tid = some th) :
    alGet (sync_from_database env [t] m).maps.task_to_thread (task_key t) =
        some tid ∧
      alGet (sync_from_database env [t] m).maps.task_to_thread leg = none ∧
      alGet (sync_from_database env [t] m).maps.thread_to_task tid =
        some (task_key t) ∧
      (sync_from_database env [t] m).changed = true ∧
      ∀ a ∈ (sync_from_database env [t] m).actions, a.isCreate = false := by
  obtain ⟨hlegGet, hlegne⟩ := legacyHit_sound hleg
  have hlu : leg ≠ task_key t := by
    rintro rfl
    rw [habs] at hlegGet
    exact Option.noConfusion hlegGet
  have hmig := migrate_hit_legacy (t := t) (m := m) habs hleg
  have hs1 : processTask env (buildLive env) ⟨m, false, 0, []⟩ t =
      ⟨⟨alInsert (alErase m.task_to_thread leg) (task_key t) tid,
        alInsert m.thread_to_task tid (task_key t)⟩,
       true, 0,
       [] ++ (if th.name ≠ get_thread_name t
          then [Action.rename th.id (get_thread_name t)] else []) ++
         starterActs env (task_key t) t (task_content t) th⟩ := by
    simp only [processTask, hmig, hth, if_neg hst, Bool.false_or]
  have hall : ∀ k mt, alGet [(task_key t, t)] k = some mt →
      mt.status ≠ "Complete" := by
    intro k mt h
    rw [alGet_cons] at h
    split at h
    · obtain rfl := Option.some.inj h
      exact hst
    · rw [alGet_nil] at h
      exact Option.noConfusion h
  have e2 : sync_from_database env [t] m =
      ((buildLive env).foldl (reverseStep env [(task_key t, t)])
          (processTask env (buildLive env) ⟨m, false, 0, []⟩ t)).maps.task_to_thread.foldl
        (orphanStep env (buildLive env) [(task_key t, t)])
        ((buildLive env).foldl (reverseStep env [(task_key t, t)])
          (processTask env (buildLive env) ⟨m, false, 0, []⟩ t)) := rfl
  rw [e2, hs1,
    foldl_fixed (reverseStep env [(task_key t, t)]) (reverseStep_skip hall)]
  have hnc1 : ∀ a ∈ ([] ++ (if th.name ≠ get_thread_name t
      then [Action.rename th.id (get_thread_name t)] else []) ++
      starterActs env (task_key t) t (task_content t) th), a.isCreate = false := by
    intro a ha
    rcases List.mem_append.mp ha with h | h
    · rcases List.mem_append.mp h with h2 | h2
      · simp at h2
      · split at h2
        · simp only [List.mem_singleton] at h2; subst h2; rfl
        · simp at h2
    · exact no_create_starterActs env (task_key t) t (task_content t) th a h
  have hcond : ∀ p ∈ alInsert (alErase m.task_to_thread leg) (task_key t) tid,
      p.1 ≠ task_key t → p.2 ≠ tid := by
    intro p hp hp1 hp2
    rcases mem_alInsert hp with heq | hmem
    · exact hp1 (congrArg Prod.fst heq)
    · have hpA : (p.1, p.2) ∈ m.task_to_thread := mem_alErase hmem
      have hpleg : p.1 ≠ leg := mem_alErase_fst_ne hnd.1 hmem
      have hgetp : alGet m.task_to_thread p.1 = some p.2 :=
        alGet_of_mem hnd.1 hpA
      rw [hp2] at hgetp
      have hB1 := hinv.1 p.1 tid hgetp
      have hB2 := hinv.1 leg tid hlegGet
      rw [hB2] at hB1
      exact hpleg (Option.some.inj hB1).symm
  have husome : (alGet [(task_key t, t)] (task_key t)).isSome = true := by
    rw [alGet_cons, if_pos rfl]
    rfl
  exact orphan_fold_c4 husome _ _ hcond (alGet_alInsert_self _ _ _)
    (by
      rw [alGet_alInsert_ne _ _ hlu]
      exact alGet_alErase_self _ hnd.1)
    (alGet_alInsert_self _ _ _) rfl hnc1

/-- C4 witness: the amended theorem at a concrete legacy-keyed mapping
with a resolvable thread. -/
theorem legacy_migration_pass_witness :
    truthy c4wTask.uuid = true ∧
    alGet c4Maps.task_to_thread (task_key c4wTask) = none ∧
    legacyHit c4Maps.task_to_thread [c4wTask.id, some c4wTask.name] =
      some ("legacy", 5) ∧
    c4wTask.status ≠ "Complete" ∧
    resolveThread c4wEnv (buildLive c4wEnv) 5 = some ⟨5, 1, "🔴 T"⟩ ∧
    alGet (sync_from_database c4wEnv [c4wTask] c4Maps).maps.task_to_thread
      (task_key c4wTask) = some 5 := by
  have hinv : Inv c4Maps := Inv2_of_lists (by decide) (by decide)
  refine ⟨by decide, by decide, by decide, by decide, by decide, ?_⟩
  exact (legacy_migration_pass c4wEnv c4Maps c4wTask "legacy" 5 ⟨5, 1, "🔴 T"⟩
    hinv (by constructor <;> decide) (by decide) (by decide) (by decide)
    (by decide) (by decide)).1

/-- C7 witness: a drifted starter message (stale content) yields exactly
one edit call. -/
theorem content_drift_edit_count_witness :
    c7Task.status ≠ "Complete" ∧
    alGet [("d", 3)] (task_key c7Task) = some 3 ∧
    resolveThread c7Env (buildLive c7Env) 3 = some ⟨3, 1, "🔴 Drift"⟩ ∧
    c7Env.fetchMessage 3 = some c7Msg ∧
    (processTask c7Env (buildLive c7Env)
        ⟨⟨[("d", 3)], [(3, "d")]⟩, false, 0, []⟩ c7Task).actions.countP
      Action.isEditMsg =
      ([] : List Action).countP Action.isEditMsg +
        (if c7Msg.content ≠ task_content c7Task ∨ c7Msg.components.isEmpty = true ∨
            expectedIds (task_key c7Task) c7Task.subtasks ≠ actualIds c7Msg
          then 1 else 0) := by
  refine ⟨by decide, by decide, by decide, by decide, ?_⟩
  exact content_drift_edit_count c7Env ⟨⟨[("d", 3)], [(3, "d")]⟩, false, 0, []⟩
    c7Task 3 ⟨3, 1, "🔴 Drift"⟩ c7Msg (by decide) (by decide) (by decide) (by decide)

/-- C8, counterexample: when the service already holds a nonempty
mapping and the backing read raises, `_load_mappings` keeps the previous
maps — it does not leave empty maps for the pass. -/
theorem load_failure_cx :
    load_mappings true DbLoad.failure ⟨[("a", 1)], [(1, "a")]⟩ =
        ⟨[("a", 1)], [(1, "a")]⟩ ∧
      (⟨[("a", 1)], [(1, "a")]⟩ : SyncState) ≠ (⟨[], []⟩ : SyncState) :=
  ⟨rfl, by decide⟩

/-- C8, amended: neither store operation propagates exceptions (both are
total functions of the backing outcome); on a missing database or a read
failure, load keeps the previously held maps (which are empty at service
start), and on success it replaces both maps, substituting an empty map
for each absent key; save persists the maps exactly when a database is
present and the write succeeds, and otherwise has no effect beyond a
log. -/
theorem mapping_store_behavior :
    (∀ (r : DbLoad) (cur : SyncState), load_mappings false r cur = cur) ∧
      (∀ cur : SyncState, load_mappings true DbLoad.failure cur = cur) ∧
      (∀ (a : Option (List (String × Nat))) (b : Option (List (Nat × String)))
          (cur : SyncState),
        load_mappings true (DbLoad.ok a b) cur = ⟨a.getD [], b.getD []⟩) ∧
      (∀ (wk : Bool) (mst : SyncState), save_mappings false wk mst = none) ∧
      (∀ mst : SyncState, save_mappings true false mst = none) ∧
      (∀ mst : SyncState, save_mappings true true mst = some mst) :=
  ⟨fun _ _ => rfl, fun _ => rfl, fun _ _ _ => rfl, fun _ _ => rfl,
   fun _ => rfl, fun _ => rfl⟩

/-! ### Ordering lemmas (C9) -/

lemma key_le_iff (a b : Int × String) :
    key_le a b = true ↔ (a.1 < b.1 ∨ (a.1 = b.1 ∧ a.2 ≤ b.2)) := by
  rw [key_le]
  split_ifs with h1 h2
  · simp [h1]
  · simp [h1, h2]
  · simp [h1, h2]

lemma key_le_trans {a b c : Int × String} (h1 : key_le a b = true)
    (h2 : key_le b c = true) : key_le a c = true := by
  rw [key_le_iff] at h1 h2 ⊢
  rcases h1 with h1 | ⟨h1e, h1s⟩ <;> rcases h2 with h2 | ⟨h2e, h2s⟩
  · exact Or.inl (lt_trans h1 h2)
  · exact Or.inl (h2e ▸ h1)
  · exact Or.inl (h1e ▸ h2)
  · exact Or.inr ⟨h1e.trans h2e, le_trans h1s h2s⟩

lemma key_le_total (a b : Int × String) :
    key_le a b = true ∨ key_le b a = true := by
  rw [key_le_iff, key_le_iff]
  rcases lt_trichotomy a.1 b.1 with h | h | h
  · exact Or.inl (Or.inl h)
  · rcases le_total a.2 b.2 with hs | hs
    · exact Or.inl (Or.inr ⟨h, hs⟩)
    · exact Or.inr (Or.inr ⟨h.symm, hs⟩)
  · exact Or.inr (Or.inl h)

lemma key_le_antisymm {a b : Int × String} (h1 : key_le a b = true)
    (h2 : key_le b a = true) : a = b := by
  rw [key_le_iff] at h1 h2
  rcases h1 with h1 | ⟨h1e, h1s⟩
  · rcases h2 with h2 | ⟨h2e, h2s⟩
    · exact absurd h2 (lt_asymm h1)
    · exfalso; omega
  · rcases h2 with h2 | ⟨h2e, h2s⟩
    · exfalso; omega
    · exact Prod.ext h1e (le_antisymm h1s h2s)

lemma task_le_trans (a b c : Task) (h1 : task_le a b = true)
    (h2 : task_le b c = true) : task_le a c = true :=
  key_le_trans h1 h2

lemma task_le_total (a b : Task) : task_le a b = true ∨ task_le b a = true :=
  key_le_total _ _

lemma insertSorted_perm {α : Type} (le : α → α → Bool) (x : α) :
    ∀ l : List α, (insertSorted le x l).Perm (x :: l) := by
  intro l
  induction l with
  | nil => exact List.Perm.refl _
  | cons y ys ih =>
    rw [insertSorted]
    split
    · exact (List.Perm.cons y ih).trans (List.Perm.swap x y ys)
    · exact List.Perm.refl _

lemma foldl_insertSorted_perm {α : Type} (le : α → α → Bool) :
    ∀ (l acc : List α),
      (l.foldl (fun a x => insertSorted le x a) acc).Perm (acc ++ l) := by
  intro l
  induction l with
  | nil => intro acc; simp
  | cons x l ih =>
    intro acc
    rw [List.foldl_cons]
    refine (ih (insertSorted le x acc)).trans ?_
    refine (List.Perm.append_right l (insertSorted_perm le x acc)).trans ?_
    exact List.perm_middle.symm

lemma sortTasks_perm (ts : List Task) : (sortTasks ts).Perm ts := by
  have h := foldl_insertSorted_perm task_le ts []
  simpa [sortTasks] using h

lemma insertSorted_sorted {α : Type} {le : α → α → Bool}
    (htrans : ∀ a b c, le a b = true → le b c = true → le a c = true)
    (htotal : ∀ a b, le a b = true ∨ le b a = true) (x : α) :
    ∀ {l : List α}, l.Pairwise (fun a b => le a b = true) →
      (insertSorted le x l).Pairwise (fun a b => le a b = true) := by
  intro l
  induction l with
  | nil => intro _; simp [insertSorted]
  | cons y ys ih =>
    intro hs
    rw [List.pairwise_cons] at hs
    rw [insertSorted]
    by_cases hyx : le y x = true
    · rw [if_pos hyx, List.pairwise_cons]
      constructor
      · intro b hb
        rcases List.mem_cons.mp ((insertSorted_perm le x ys).mem_iff.mp hb) with
          rfl | hb2
        · exact hyx
        · exact hs.1 b hb2
      · exact ih hs.2
    · rw [if_neg hyx, List.pairwise_cons]
      have hxy : le x y = true := (htotal x y).resolve_right hyx
      refine ⟨?_, List.pairwise_cons.mpr hs⟩
      intro b hb
      rcases List.mem_cons.mp hb with rfl | hb2
      · exact hxy
      · exact htrans x y b hxy (hs.1 b hb2)

lemma sortTasks_sorted (ts : List Task) :
    (sortTasks ts).Pairwise (fun a b => task_le a b = true) := by
  rw [sortTasks]
  have h : ∀ (l acc : List Task),
      acc.Pairwise (fun a b => task_le a b = true) →
      (l.foldl (fun a t => insertSorted task_le t a) acc).Pairwise
        (fun a b => task_le a b = true) := by
    intro l
    induction l with
    | nil => intro acc hacc; exact hacc
    | cons x l ih =>
      intro acc hacc
      rw [List.foldl_cons]
      exact ih _ (insertSorted_sorted task_le_trans task_le_total x hacc)
  exact h ts [] (by simp)

/-- Two sorted permutations of each other with injective sort keys are
equal. -/
lemma sorted_perm_eq :
    ∀ {l1 l2 : List Task}, l1.Perm l2 →
      l1.Pairwise (fun a b => task_le a b = true) →
      l2.Pairwise (fun a b => task_le a b = true) →
      (∀ a ∈ l1, ∀ b ∈ l1, task_sort_key a = task_sort_key b → a = b) →
      l1 = l2 := by
  intro l1
  induction l1 with
  | nil =>
    intro l2 h _ _ _
    exact (List.Perm.eq_nil h.symm).symm
  | cons a t1 ih =>
    intro l2 h s1 s2 hinj
    cases l2 with
    | nil => exact absurd (List.Perm.eq_nil h) (by simp)
    | cons b t2 =>
      rw [List.pairwise_cons] at s1 s2
      by_cases hab : a = b
      · subst hab
        have h' := h.cons_inv
        have he := ih h' s1.2 s2.2 (fun x hx y hy hk =>
          hinj x (List.mem_cons_of_mem _ hx) y (List.mem_cons_of_mem _ hy) hk)
        rw [he]
      · have hb1 : b ∈ t1 := by
          have hb : b ∈ a :: t1 := h.mem_iff.mpr (List.mem_cons_self b t2)
          rcases List.mem_cons.mp hb with h' | h'
          · exact absurd h'.symm hab
          · exact h'
        have ha2 : a ∈ t2 := by
          have ha : a ∈ b :: t2 := h.mem_iff.mp (List.mem_cons_self a t1)
          rcases List.mem_cons.mp ha with h' | h'
          · exact absurd h' hab
          · exact h'
        have hk : task_sort_key a = task_sort_key b :=
          key_le_antisymm (s1.1 b hb1) (s2.1 a ha2)
        exact absurd
          (hinj a (List.mem_cons_self _ _) b (List.mem_cons_of_mem _ hb1) hk) hab

/-- C9: the pass processes tasks in ascending `(order, name.lower())`
order (the processed list is sorted by the key and is a permutation of
the input), and two passes over the same task set — any two lists that
are permutations of each other, with the key injective on them — are
identical, including their remote-call trace. -/
theorem task_ordering_deterministic (env : Env) (m : SyncState)
    (ts1 ts2 : List Task) (hperm : ts1.Perm ts2)
    (hinj : ∀ a ∈ ts1, ∀ b ∈ ts1, task_sort_key a = task_sort_key b → a = b) :
    (sortTasks ts1).Pairwise (fun a b => task_le a b = true) ∧
      (sortTasks ts1).Perm ts1 ∧
      sync_from_database env ts1 m = sync_from_database env ts2 m := by
  have hperm1 := sortTasks_perm ts1
  have hperm2 := sortTasks_perm ts2
  have heq : sortTasks ts1 = sortTasks ts2 :=
    sorted_perm_eq (hperm1.trans (hperm.trans hperm2.symm))
      (sortTasks_sorted ts1) (sortTasks_sorted ts2)
      (fun x hx y hy hk =>
        hinj x (hperm1.mem_iff.mp hx) y (hperm1.mem_iff.mp hy) hk)
  refine ⟨sortTasks_sorted ts1, hperm1, ?_⟩
  simp only [sync_from_database]
  rw [heq]

/-- C9 witness: the theorem applied to a two-task set given in the two
possible orders. -/
theorem task_ordering_deterministic_witness :
    ([c9TaskA, c9TaskB].Perm [c9TaskB, c9TaskA]) ∧
      (∀ a ∈ [c9TaskA, c9TaskB], ∀ b ∈ [c9TaskA, c9TaskB],
        task_sort_key a = task_sort_key b → a = b) ∧
      sync_from_database c9Env [c9TaskA, c9TaskB] ⟨[], []⟩ =
        sync_from_database c9Env [c9TaskB, c9TaskA] ⟨[], []⟩ := by
  have hinj : ∀ a ∈ [c9TaskA, c9TaskB], ∀ b ∈ [c9TaskA, c9TaskB],
      task_sort_key a = task_sort_key b → a = b := by
    intro a ha b hb hk
    fin_cases ha <;> fin_cases hb
    · rfl
    · exact absurd (congrArg Prod.fst hk) (by decide)
    · exact absurd (congrArg Prod.fst hk) (by decide)
    · rfl
  refine ⟨by decide, hinj, ?_⟩
  exact (task_ordering_deterministic c9Env ⟨[], []⟩ [c9TaskA, c9TaskB]
    [c9TaskB, c9TaskA] (by decide) hinj).2.2

/-! ### Round-trip of the derived thread name (C10) -/

lemma priority_emoji_mem (p : String) :
    priority_emoji p ∈ priorityEmojiValues := by
  simp only [priority_emoji, PRIORITY_EMOJIS, alGet]
  split_ifs <;> simp [priorityEmojiValues, Option.getD]

lemma mem_values_single {e : String} (he : e ∈ priorityEmojiValues) :
    ∃ c, e.data = [c] := by
  fin_cases he
  · exact ⟨'🔴', by decide⟩
  · exact ⟨'🟠', by decide⟩
  · exact ⟨'⚪', by decide⟩

lemma isPrefixOf_cons_ne {c c' : Char} (hne : c' ≠ c) (l2 l : List Char) :
    List.isPrefixOf (c' :: l2) (c :: l) = false := by
  simp [List.isPrefixOf, hne]

lemma py_startswith_hit (e n : String) :
    py_startswith (e ++ " " ++ n) (e ++ " ") = true := by
  simp only [py_startswith, String.data_append]
  exact List.isPrefixOf_iff_prefix.mpr (List.prefix_append _ _)

lemma py_drop_hit (e n : String) :
    py_drop (e ++ " " ++ n) (e ++ " ").data.length = n := by
  refine String.ext ?_
  show (((e ++ " ") ++ n).data).drop (e ++ " ").data.length = n.data
  simp only [String.data_append]
  exact List.drop_left _ _

lemma py_startswith_miss {e e' : String} {c c' : Char} (he : e.data = [c])
    (he' : e'.data = [c']) (hne : e' ≠ e) (n : String) :
    py_startswith (e ++ " " ++ n) (e' ++ " ") = false := by
  have hcc : c' ≠ c := by
    rintro rfl
    exact hne (String.ext (he'.trans he.symm))
  simp only [py_startswith, String.data_append, he, he']
  exact isPrefixOf_cons_ne hcc _ _

/-- The stripping loop applied to a derived name gives back the raw
name, whichever order the emoji set is iterated in. -/
lemma strip_on_derived :
    ∀ (es : List String) (e n : String), e ∈ es →
      (∀ x ∈ es, x ∈ priorityEmojiValues) → e ∈ priorityEmojiValues →
      strip_priority_marker es (e ++ " " ++ n) = n := by
  intro es
  induction es with
  | nil => intro e n he _ _; cases he
  | cons e' rest ih =>
    intro e n he hes heV
    rw [strip_priority_marker]
    by_cases heq : e' = e
    · subst heq
      rw [if_pos (py_startswith_hit e' n), py_drop_hit]
    · obtain ⟨c, hc⟩ := mem_values_single heV
      obtain ⟨c', hc'⟩ := mem_values_single (hes e' (List.mem_cons_self _ _))
      have hmiss := py_startswith_miss hc hc' heq n
      simp only [hmiss, Bool.false_eq_true, if_false]
      rcases List.mem_cons.mp he with rfl | he2
      · exact absurd rfl heq
      · exact ih e n he2 (fun x hx => hes x (List.mem_cons_of_mem _ hx)) heV

/-- C10: for a task whose name does not itself start with a priority
marker, stripping (in any iteration order of the emoji value set) the
name derived by `_get_thread_name` returns exactly the task name. -/
theorem thread_name_roundtrip (es : List String) (t : Task)
    (hperm : es.Perm priorityEmojiValues)
    (_hname : ∀ e ∈ priorityEmojiValues,
      py_startswith t.name (e ++ " ") = false) :
    strip_priority_marker es (get_thread_name t) = t.name := by
  have he : priority_emoji t.colour ∈ priorityEmojiValues :=
    priority_emoji_mem _
  exact strip_on_derived es (priority_emoji t.colour) t.name
    (hperm.mem_iff.mpr he) (fun x hx => hperm.mem_iff.mp hx) he

/-- C10 witness: the round trip at a concrete task. -/
theorem thread_name_roundtrip_witness :
    priorityEmojiValues.Perm priorityEmojiValues ∧
      (∀ e ∈ priorityEmojiValues,
        py_startswith c10Task.name (e ++ " ") = false) ∧
      strip_priority_marker priorityEmojiValues (get_thread_name c10Task) =
        c10Task.name := by
  refine ⟨List.Perm.refl _, by decide, ?_⟩
  exact thread_name_roundtrip priorityEmojiValues c10Task (List.Perm.refl _)
    (by decide)

lemma foldl_fixed_at {α σ : Type} (f : σ → α → σ) (l : List α) (s : σ)
    (hid : ∀ x ∈ l, f s x = s) : l.foldl f s = s := by
  induction l with
  | nil => rfl
  | cons x l ih =>
    rw [List.foldl_cons, hid x (List.mem_cons_self _ _)]
    exact ih (fun y hy => hid y (List.mem_cons_of_mem _ hy))

/-- C2: for a task set whose mapping already reflects goal state — every
non-Complete task is mapped to an indexed thread carrying the derived
name, the freshly rendered starter content and the expected control-id
set, Complete tasks have no mapping entry (canonical or legacy), and
every mapping entry belongs to a non-Complete task of the set — one
reconciliation pass issues zero remote mutation calls, performs zero
mapping saves, and leaves the mapping untouched. -/
theorem sync_idempotent (env : Env) (tasks : List Task) (m : SyncState)
    (hinv : Inv m) (hnd : NodupKeys m)
    (htask : ∀ t ∈ tasks, t.status ≠ "Complete" →
      ∃ tid th msg,
        alGet m.task_to_thread (task_key t) = some tid ∧
        alGet (buildLive env) tid = some th ∧
        th.name = get_thread_name t ∧
        env.fetchMessage th.id = some msg ∧
        msg.content = task_content t ∧
        msg.components ≠ [] ∧
        expectedIds (task_key t) t.subtasks = actualIds msg)
    (hcomplete : ∀ t ∈ tasks, t.status = "Complete" →
      alGet m.task_to_thread (task_key t) = none ∧
      legacyHit m.task_to_thread [t.id, some t.name] = none)
    (hentries : ∀ k tid, alGet m.task_to_thread k = some tid →
      ∃ mt, alGet (buildUuidToTask (sortTasks tasks)) k = some mt ∧
        mt.status ≠ "Complete") :
    (sync_from_database env tasks m).actions = [] ∧
      (sync_from_database env tasks m).changed = false ∧
      (sync_from_database env tasks m).maps = m := by
  have hid1 : ∀ t ∈ sortTasks tasks,
      processTask env (buildLive env) ⟨m, false, 0, []⟩ t =
        ⟨m, false, 0, []⟩ := by
    intro t ht
    have htm : t ∈ tasks := (sortTasks_perm tasks).mem_iff.mp ht
    by_cases hst : t.status = "Complete"
    · obtain ⟨habs, hhit⟩ := hcomplete t htm hst
      have hmig := migrate_miss (t := t) (m := m) habs hhit
      simp [processTask, hmig, hst]
    · obtain ⟨tid, th, msg, htid, hlive, hnm, hmsg, hcontent, hcomp, hids⟩ :=
        htask t htm hst
      have hmig := migrate_hit_canonical (t := t) (m := m) htid
      have hrt : resolveThread env (buildLive env) tid = some th := by
        rw [resolveThread, hlive]
      simp [processTask, hmig, hrt, hst, hnm, starterActs, hmsg, hcontent,
        hcomp, hids]
  have hmainfold : (sortTasks tasks).foldl (processTask env (buildLive env))
      ⟨m, false, 0, []⟩ = ⟨m, false, 0, []⟩ :=
    foldl_fixed_at _ _ _ hid1
  have hrevid : ∀ p ∈ buildLive env,
      reverseStep env (buildUuidToTask (sortTasks tasks)) ⟨m, false, 0, []⟩ p =
        ⟨m, false, 0, []⟩ := by
    intro p _
    cases hB : alGet m.thread_to_task p.1 with
    | none => simp [reverseStep, hB]
    | some k =>
      by_cases hke : k = ""
      · simp [reverseStep, hB, hke]
      · have hA : alGet m.task_to_thread k = some p.1 := hinv.2 p.1 k hB
        obtain ⟨mt, hu2t, hmt⟩ := hentries k p.1 hA
        simp [reverseStep, hB, hke, hu2t, hmt]
  have hrevfold : (buildLive env).foldl
      (reverseStep env (buildUuidToTask (sortTasks tasks)))
      ⟨m, false, 0, []⟩ = ⟨m, false, 0, []⟩ :=
    foldl_fixed_at _ _ _ hrevid
  have horphid : ∀ p ∈ m.task_to_thread,
      orphanStep env (buildLive env) (buildUuidToTask (sortTasks tasks))
        ⟨m, false, 0, []⟩ p = ⟨m, false, 0, []⟩ := by
    intro p hp
    have hget : alGet m.task_to_thread p.1 = some p.2 := alGet_of_mem hnd.1 hp
    obtain ⟨mt, hu2t, _⟩ := hentries p.1 p.2 hget
    simp [orphanStep, hu2t]
  have horphfold : (m.task_to_thread).foldl
      (orphanStep env (buildLive env) (buildUuidToTask (sortTasks tasks)))
      ⟨m, false, 0, []⟩ = ⟨m, false, 0, []⟩ :=
    foldl_fixed_at _ _ _ horphid
  have e2 : sync_from_database env tasks m =
      (((buildLive env).foldl
          (reverseStep env (buildUuidToTask (sortTasks tasks)))
          ((sortTasks tasks).foldl (processTask env (buildLive env))
            ⟨m, false, 0, []⟩)).maps.task_to_thread).foldl
        (orphanStep env (buildLive env) (buildUuidToTask (sortTasks tasks)))
        ((buildLive env).foldl
          (reverseStep env (buildUuidToTask (sortTasks tasks)))
          ((sortTasks tasks).foldl (processTask env (buildLive env))
            ⟨m, false, 0, []⟩)) := rfl
  rw [e2, hmainfold, hrevfold]
  have e3 : (⟨m, false, 0, []⟩ : PassState).maps.task_to_thread =
      m.task_to_thread := rfl
  rw [e3, horphfold]
  exact ⟨rfl, rfl, rfl⟩

/-- C2 witness: a single already-synced task with a matching live thread
and starter message; the pass is a no-op. -/
theorem sync_idempotent_witness :
    Inv c2Maps ∧
      (sync_from_database c2Env [c2Task] c2Maps).actions = [] ∧
      (sync_from_database c2Env [c2Task] c2Maps).changed = false := by
  have hinv : Inv c2Maps := Inv2_of_lists (by decide) (by decide)
  have htask : ∀ t ∈ [c2Task], t.status ≠ "Complete" →
      ∃ tid th msg,
        alGet c2Maps.task_to_thread (task_key t) = some tid ∧
        alGet (buildLive c2Env) tid = some th ∧
        th.name = get_thread_name t ∧
        c2Env.fetchMessage th.id = some msg ∧
        msg.content = task_content t ∧
        msg.components ≠ [] ∧
        expectedIds (task_key t) t.subtasks = actualIds msg := by
    intro t ht _
    obtain rfl := List.mem_singleton.mp ht
    exact ⟨9, ⟨9, 1, get_thread_name c2Task⟩, c2Msg, by decide, by decide, rfl,
      by decide, rfl, by decide, by decide⟩
  have hcomplete : ∀ t ∈ [c2Task], t.status = "Complete" →
      alGet c2Maps.task_to_thread (task_key t) = none ∧
      legacyHit c2Maps.task_to_thread [t.id, some t.name] = none := by
    intro t ht hc
    obtain rfl := List.mem_singleton.mp ht
    exact absurd hc (by decide)
  have hentries : ∀ k tid, alGet c2Maps.task_to_thread k = some tid →
      ∃ mt, alGet (buildUuidToTask (sortTasks [c2Task])) k = some mt ∧
        mt.status ≠ "Complete" := by
    intro k tid h
    have hk : k = "u" := by
      by_contra hc
      rw [show c2Maps.task_to_thread = [("u", 9)] from rfl, alGet_cons,
        if_neg (fun he => hc he.symm), alGet_nil] at h
      exact Option.noConfusion h
    subst hk
    exact ⟨c2Task, by decide, by decide⟩
  have h := sync_idempotent c2Env [c2Task] c2Maps hinv
    (by constructor <;> decide) htask hcomplete hentries
  exact ⟨hinv, h.1, h.2.1⟩

end ForumSync
